import Mathlib

/-!
Shallow embedding of the `asn1-parser` crate of the crypto-helper repository:
the BER/DER tag-length-value codec (tag and length primitives, cursor-based
reader and writer, the recursive `Asn1` tree, and the decoders/encoders of
`OctetString`, `Utf8String` and `ExplicitTag`).

Bytes are modelled as `Nat` (values below 256 in every real buffer), buffers
as `List Nat`, `usize`/`u64` as `Nat`.  Rust's `&mut Reader` is modelled by
explicit state passing: a decoder takes a `Reader` and returns its result
together with the final `Reader`, also on failure (Rust leaves the reader in
its partially-advanced state when an error is returned through `?`).

The modules `length.rs`, `reader.rs`, `writer.rs`, `tag.rs`, `error.rs`,
`asn1.rs` and `macros.rs` of the crate are not part of the provided sources;
the corresponding definitions below are modelled from the specification and
are marked `Modelled from the spec:` in their doc comments.  The files
`octet_string.rs`, `utf8_string.rs` and `tags/explicit.rs` are embedded
from the source.
-/

namespace Asn1Parser

/-- Modelled from the spec: the error taxonomy of `error.rs` (§7): tag
mismatch, length-decode error, data underrun, content-validation error
(invalid UTF-8), writer buffer-too-small, and an unknown-tag error for the
union dispatch when no candidate type claims the tag. -/
inductive Error where
  | tagMismatch : Error
  | lengthError : Error
  | dataUnderrun : Error
  | contentError : Error
  | bufferTooSmall : Error
  | unknownTag : Error
deriving DecidableEq, Repr

/-- Modelled from the spec: `tag.rs`. A `Tag` is a single raw byte (§3);
`Tag(4)` in Rust is `Tag.mk 4` here. -/
structure Tag where
  v : Nat
deriving DecidableEq, Repr

/-- Modelled from the spec: the context-specific tag class is the class-bit
pattern `10` in the two top bits of the tag byte (§3, glossary). -/
def Tag.is_context_specific (t : Tag) : Bool :=
  t.v &&& 0xC0 == 0x80

/-- Modelled from the spec: the constructed flag is bit 5 of the tag byte. -/
def Tag.is_constructed (t : Tag) : Bool :=
  t.v &&& 0x20 == 0x20

/-- Byte range (Rust `Range<usize>`): half-open interval `[lo, hi)`. -/
structure ARange where
  lo : Nat
  hi : Nat
deriving DecidableEq, Repr

/-- Modelled from the spec: raw entity metadata of a decoded tree node (§3):
the raw byte slice covering tag+length+payload, the tag's starting offset,
the length field's byte range and the payload's byte range. -/
structure RawAsn1EntityData where
  raw_data : List Nat
  tag : Nat
  length : ARange
  data : ARange
deriving DecidableEq, Repr

/-- Accessor used by the tests: the tag's starting offset. -/
def RawAsn1EntityData.tag_position (r : RawAsn1EntityData) : Nat := r.tag

/-- Accessor used by the tests: the length field's byte range. -/
def RawAsn1EntityData.length_range (r : RawAsn1EntityData) : ARange := r.length

/-- Accessor used by the tests: the payload byte range. -/
def RawAsn1EntityData.data_range (r : RawAsn1EntityData) : ARange := r.data

/-- Number of bytes of the minimal big-endian representation of `n`. -/
def byteCount (n : Nat) : Nat :=
  if n < 256 then 1 else 1 + byteCount (n / 256)
decreasing_by exact Nat.div_lt_self (by omega) (by omega)

/-- Big-endian bytes of `n`, `k` octets (low `8*k` bits of `n`). -/
def beBytesAux : Nat → Nat → List Nat
  | 0, _ => []
  | k + 1, n => beBytesAux k (n / 256) ++ [n % 256]

/-- Minimal big-endian representation of `n` (`byteCount n` octets). -/
def beBytes (n : Nat) : List Nat := beBytesAux (byteCount n) n

/-- Big-endian assembly of a list of octets into an integer. -/
def fromBE (bytes : List Nat) : Nat :=
  bytes.foldl (fun acc b => acc * 256 + b) 0

/-- Modelled from the spec: `len_size` of `length.rs` (§4.2): number of
octets `write_len` emits for `value` without writing — one short-form octet
for values below 128, otherwise an introducer octet plus the minimal
big-endian encoding. -/
def len_size (value : Nat) : Nat :=
  if value < 128 then 1 else 1 + byteCount value

/-- The octets that `write_len` emits for a value, as a pure list. -/
def write_len_bytes (value : Nat) : List Nat :=
  if value < 128 then [value]
  else (0x80 ||| byteCount value) :: beBytes value

/-- Result buffer of an in-place write of `bs` at position `p`. -/
def splice (buf : List Nat) (p : Nat) (bs : List Nat) : List Nat :=
  buf.take p ++ bs ++ buf.drop (p + bs.length)

/-- Modelled from the spec: the `Reader` cursor of `reader.rs` (§4.3):
borrowed buffer, local position, caller-supplied global offset, and the
monotonically increasing node-id counter threaded through nested decodes. -/
structure Reader where
  data : List Nat
  pos : Nat
  offset : Nat
  nextId : Nat
deriving DecidableEq, Repr

/-- Modelled from the spec: `Reader::new` starts at position 0 with global
offset 0 and id counter 0 (the first decoded node of a fresh reader gets
id 0, as the `utf8_string.rs` test expects). -/
def Reader.new (data : List Nat) : Reader := ⟨data, 0, 0, 0⟩

/-- Modelled from the spec: local cursor position. -/
def Reader.position (r : Reader) : Nat := r.pos

/-- Modelled from the spec: global cursor position, the local position
translated by the caller-supplied offset. -/
def Reader.full_offset (r : Reader) : Nat := r.offset + r.pos

/-- Modelled from the spec: `empty()` is true when no bytes remain. -/
def Reader.empty (r : Reader) : Bool := r.data.length ≤ r.pos

/-- Modelled from the spec: overwrite the global offset of the reader (used
when a child reader decodes an embedded buffer carved out of a parent). -/
def Reader.set_offset (r : Reader) (o : Nat) : Reader := { r with offset := o }

/-- Modelled from the spec: `next_id()` returns the current value of the
shared id counter and advances it (every decoder calls it after finishing a
node's content to obtain that node's id). -/
def Reader.next_id (r : Reader) : Nat × Reader :=
  (r.nextId, { r with nextId := r.nextId + 1 })

/-- Modelled from the spec: overwrite the shared id counter (used to thread
the counter between parent and child readers). -/
def Reader.set_next_id (r : Reader) (v : Nat) : Reader := { r with nextId := v }

/-- Modelled from the spec: `read(n)` returns the next `n` bytes and
advances the position; fails with a data-underrun error if fewer remain. -/
def Reader.read (r : Reader) (n : Nat) : Except Error (List Nat) × Reader :=
  if r.pos + n ≤ r.data.length then
    (.ok ((r.data.drop r.pos).take n), { r with pos := r.pos + n })
  else
    (.error .dataUnderrun, r)

/-- Modelled from the spec: read one byte. -/
def Reader.read1 (r : Reader) : Except Error Nat × Reader :=
  match r.data[r.pos]? with
  | some b => (.ok b, { r with pos := r.pos + 1 })
  | none => (.error .dataUnderrun, r)

/-- Modelled from the spec: look at the next byte without consuming it (the
union dispatch matches the tag against each candidate type's predicate and
then lets the matching type's decoder re-read it). -/
def Reader.peek (r : Reader) : Except Error Nat :=
  match r.data[r.pos]? with
  | some b => .ok b
  | none => .error .dataUnderrun

/-- Modelled from the spec: `data_in_range` returns the slice `[lo, hi)` of
the reader's underlying buffer, failing when out of bounds.  Ranges are in
the reader's local coordinates: the call site
`reader.data_in_range(data_start..data_range.end)` in `octet_string.rs`
pairs it with `reader.position()`-derived endpoints. -/
def Reader.data_in_range (r : Reader) (a b : Nat) : Except Error (List Nat) :=
  if a ≤ b ∧ b ≤ r.data.length then .ok ((r.data.drop a).take (b - a))
  else .error .dataUnderrun

/-- Modelled from the spec: `read_data` (in `reader.rs`) reads `len` bytes
and also returns the byte range they occupied. -/
def read_data (r : Reader) (len : Nat) :
    Except Error (List Nat × ARange) × Reader :=
  match r.read len with
  | (.error e, r') => (.error e, r')
  | (.ok d, r') => (.ok (d, ⟨r.pos, r'.pos⟩), r')

/-- Modelled from the spec: `read_len` of `length.rs` (§4.2): one octet; a
clear high bit is a short-form length; otherwise the low 7 bits count the
following big-endian length octets.  Fails with a length error when the
long-form count is zero (reserved indefinite form) or would overflow the
platform size type (more than 8 octets), and with a data underrun when too
few bytes remain. -/
def read_len (r : Reader) : Except Error (Nat × ARange) × Reader :=
  match r.read1 with
  | (.error e, r') => (.error e, r')
  | (.ok b, r') =>
    if b < 128 then (.ok (b, ⟨r.pos, r'.pos⟩), r')
    else if b &&& 0x7F = 0 then (.error .lengthError, r')
    else if 8 < b &&& 0x7F then (.error .lengthError, r')
    else
      match r'.read (b &&& 0x7F) with
      | (.error e, r'') => (.error e, r'')
      | (.ok bytes, r'') => (.ok (fromBE bytes, ⟨r.pos, r''.pos⟩), r'')

/-- Modelled from the spec: the `Writer` cursor of `writer.rs` (§4.4): a
caller-provided fixed-size buffer and a write position. -/
structure Writer where
  buf : List Nat
  pos : Nat
deriving DecidableEq, Repr

/-- Modelled from the spec: a fresh writer over a caller-provided buffer. -/
def Writer.new (buf : List Nat) : Writer := ⟨buf, 0⟩

/-- Modelled from the spec: append one byte at the current position, failing
with a buffer-too-small error when no capacity remains (no growth). -/
def Writer.write_byte (w : Writer) (b : Nat) : Except Error Writer :=
  if w.pos < w.buf.length then .ok ⟨w.buf.set w.pos b, w.pos + 1⟩
  else .error .bufferTooSmall

/-- Modelled from the spec: append a slice byte by byte. -/
def Writer.write_slice (w : Writer) : List Nat → Except Error Writer
  | [] => .ok w
  | b :: rest => do
    let w' ← w.write_byte b
    w'.write_slice rest

/-- Modelled from the spec: `write_len` of `length.rs` (§4.2): one
short-form octet for values below 128, otherwise the introducer octet
`0x80 | count` followed by the minimal big-endian encoding of the value. -/
def write_len (value : Nat) (w : Writer) : Except Error Writer :=
  if value < 128 then w.write_byte value
  else do
    let w' ← w.write_byte (0x80 ||| byteCount value)
    w'.write_slice (beBytes value)

/-- Whether a byte is a UTF-8 continuation byte (`0x80..=0xBF`). -/
def isCont (b : Nat) : Bool := 0x80 ≤ b && b ≤ 0xBF

/-- Modelled from `core::str::from_utf8`: the standard UTF-8 well-formedness
check (RFC 3629 ranges, rejecting overlong forms, surrogates and values
above `U+10FFFF`). -/
def utf8Valid : List Nat → Bool
  | [] => true
  | b :: rest =>
    if b < 0x80 then utf8Valid rest
    else if 0xC2 ≤ b && b ≤ 0xDF then
      match rest with
      | c1 :: rest' => isCont c1 && utf8Valid rest'
      | [] => false
    else if b = 0xE0 then
      match rest with
      | c1 :: c2 :: rest' => (0xA0 ≤ c1 && c1 ≤ 0xBF) && isCont c2 && utf8Valid rest'
      | _ => false
    else if (0xE1 ≤ b && b ≤ 0xEC) || b = 0xEE || b = 0xEF then
      match rest with
      | c1 :: c2 :: rest' => isCont c1 && isCont c2 && utf8Valid rest'
      | _ => false
    else if b = 0xED then
      match rest with
      | c1 :: c2 :: rest' => (0x80 ≤ c1 && c1 ≤ 0x9F) && isCont c2 && utf8Valid rest'
      | _ => false
    else if b = 0xF0 then
      match rest with
      | c1 :: c2 :: c3 :: rest' =>
        (0x90 ≤ c1 && c1 ≤ 0xBF) && isCont c2 && isCont c3 && utf8Valid rest'
      | _ => false
    else if 0xF1 ≤ b && b ≤ 0xF3 then
      match rest with
      | c1 :: c2 :: c3 :: rest' => isCont c1 && isCont c2 && isCont c3 && utf8Valid rest'
      | _ => false
    else if b = 0xF4 then
      match rest with
      | c1 :: c2 :: c3 :: rest' =>
        (0x80 ≤ c1 && c1 ≤ 0x8F) && isCont c2 && isCont c3 && utf8Valid rest'
      | _ => false
    else false

/-- Modelled from `core::str::from_utf8`: returns the same bytes as a
string view when they are well-formed UTF-8, a content-validation error
otherwise (the Rust `Utf8Error` converts into the crate error type). -/
def from_utf8 (data : List Nat) : Except Error (List Nat) :=
  if utf8Valid data then .ok data else .error .contentError

/-- The `Utf8String` type of `utf8_string.rs`: node id and the string
content, stored as its UTF-8 bytes (Rust keeps a `Cow<str>` view of the
payload bytes; `str::len` is the byte length). -/
structure Utf8String where
  id : Nat
  string : List Nat
deriving DecidableEq, Repr

mutual

/-- The `Asn1` tree node of `asn1.rs` (modelled from the spec §3): raw
entity metadata plus one concrete decoded payload. -/
inductive Asn1 where
  | mk (raw_data : RawAsn1EntityData) (asn1_type : Asn1Type)

/-- The tagged union over the concrete types present in the sources
(modelled from the spec §3; the sibling variants of the full crate are not
part of the provided sources). -/
inductive Asn1Type where
  | octetString (s : OctetString)
  | utf8String (s : Utf8String)
  | explicitTag (e : ExplicitTag)

/-- The `OctetString` type of `octet_string.rs`: node id, the payload
octets, and the optional result of the speculative nested decode. -/
inductive OctetString where
  | mk (id : Nat) (octets : List Nat) (inner : Option Asn1)

/-- The `ExplicitTag` type of `tags/explicit.rs`: the stored tag byte and
the ordered child tree nodes. -/
inductive ExplicitTag where
  | mk (tag : Nat) (inner : List Asn1)

end

/-- Field accessor: raw entity metadata of a tree node. -/
def Asn1.raw_data : Asn1 → RawAsn1EntityData
  | .mk r _ => r

/-- Field accessor (the `asn1()` method): the concrete payload. -/
def Asn1.asn1_type : Asn1 → Asn1Type
  | .mk _ t => t

/-- Field accessor: node id of an octet string. -/
def OctetString.id : OctetString → Nat
  | .mk i _ _ => i

/-- Field accessor (the `octets()` method). -/
def OctetString.octets : OctetString → List Nat
  | .mk _ o _ => o

/-- Field accessor (the `inner()` method): the nested decode result. -/
def OctetString.inner : OctetString → Option Asn1
  | .mk _ _ i => i

/-- Field accessor: the stored tag byte of an explicit tag. -/
def ExplicitTag.tagByte : ExplicitTag → Nat
  | .mk t _ => t

/-- Field accessor (the `inner()` method): the child nodes. -/
def ExplicitTag.inner : ExplicitTag → List Asn1
  | .mk _ i => i

/-- From `octet_string.rs`: `OctetString::TAG` is `Tag(4)`. -/
def OctetString.TAG : Tag := ⟨4⟩

/-- From `octet_string.rs`: `compare_tags` is exact equality with `TAG`. -/
def OctetString.compare_tags (t : Tag) : Bool := OctetString.TAG == t

/-- From `utf8_string.rs`: `Utf8String::TAG` is `Tag(12)`. -/
def Utf8String.TAG : Tag := ⟨12⟩

/-- From `utf8_string.rs`: `compare_tags` is exact equality with `TAG`. -/
def Utf8String.compare_tags (t : Tag) : Bool := Utf8String.TAG == t

/-- From `tags/explicit.rs`: `ExplicitTag::new` combines the caller-supplied
tag number with the context-specific + constructed bits. -/
def ExplicitTag.new (tag : Nat) (inner : List Asn1) : ExplicitTag :=
  .mk (tag &&& 0x1F ||| 0xA0) inner

/-- From `tags/explicit.rs`: `tag_number` extracts the low five bits. -/
def ExplicitTag.tag_number (e : ExplicitTag) : Nat := e.tagByte &&& 0x1F

/-- From `tags/explicit.rs` (`Taggable` impl): the tag of an explicit tag. -/
def ExplicitTag.tag (e : ExplicitTag) : Tag := ⟨e.tagByte⟩

/-- From `tags/explicit.rs`: `compare_tags` accepts any tag that is both
context-specific and constructed. -/
def ExplicitTag.compare_tags (t : Tag) : Bool :=
  t.is_context_specific && t.is_constructed

/-- Modelled from the spec: the `check_tag!` macro of `macros.rs` reads the
tag byte from the reader and fails with a tag-mismatch error when the
decoding type does not claim it. -/
def check_tag (p : Tag → Bool) (r : Reader) : Except Error Nat × Reader :=
  match r.read1 with
  | (.error e, r') => (.error e, r')
  | (.ok b, r') => if p ⟨b⟩ then (.ok b, r') else (.error .tagMismatch, r')

/-- From `utf8_string.rs`: value-only decode — reads tag, length and
payload, validates UTF-8 and stamps the node id.  Rust evaluates the struct
fields in order, so `next_id()` is consumed before `from_utf8` can fail. -/
def Utf8String.decode (r : Reader) : Except Error Utf8String × Reader :=
  match check_tag Utf8String.compare_tags r with
  | (.error e, r1) => (.error e, r1)
  | (.ok _, r1) =>
  match read_len r1 with
  | (.error e, r2) => (.error e, r2)
  | (.ok (len, _len_range), r2) =>
  match r2.read len with
  | (.error e, r3) => (.error e, r3)
  | (.ok data, r3) =>
    match r3.next_id with
    | (id, r4) =>
      match from_utf8 data with
      | .error e => (.error e, r4)
      | .ok s => (.ok ⟨id, s⟩, r4)

/-- From `utf8_string.rs`: tree-node decode — like `decode` but also
captures the raw byte range (tag start through payload end) and wraps the
value in an `Asn1` node. -/
def Utf8String.decode_asn1 (r : Reader) : Except Error Asn1 × Reader :=
  match check_tag Utf8String.compare_tags r with
  | (.error e, r1) => (.error e, r1)
  | (.ok _, r1) =>
  match read_len r1 with
  | (.error e, r2) => (.error e, r2)
  | (.ok (len, len_range), r2) =>
  match read_data r2 len with
  | (.error e, r3) => (.error e, r3)
  | (.ok (data, data_range), r3) =>
    match r3.data_in_range r.position data_range.hi with
    | .error e => (.error e, r3)
    | .ok raw =>
      match r3.next_id with
      | (id, r4) =>
        match from_utf8 data with
        | .error e => (.error e, r4)
        | .ok s =>
          (.ok (.mk ⟨raw, r.full_offset, len_range, data_range⟩
            (.utf8String ⟨id, s⟩)), r4)

/-- Result of a fueled decoder: `none` when the recursion budget ran out
(never reached with enough fuel), otherwise the Rust result together with
the final reader state (Rust's `&mut Reader` keeps its advanced state also
when an error is returned). -/
abbrev DecResult (α : Type) := Option (Except Error α × Reader)

mutual

/-- Modelled from the spec: the union decode entry point
(`Asn1::decode` / `Asn1Type::decode_asn1`, §4.5): the tag is matched
against each candidate type's predicate in a fixed priority order and the
matching type's tree-node decoder is invoked; an unrecognized tag is a
dedicated error.  The fuel argument bounds recursion depth and is absent
from the Rust (which recurses natively). -/
def Asn1.decode : Nat → Reader → DecResult Asn1
  | 0, _ => none
  | f + 1, r =>
    match r.peek with
    | .error e => some (.error e, r)
    | .ok b =>
      if OctetString.compare_tags ⟨b⟩ then OctetString.decode_asn1F f r
      else if Utf8String.compare_tags ⟨b⟩ then some (Utf8String.decode_asn1 r)
      else if ExplicitTag.compare_tags ⟨b⟩ then ExplicitTag.decode_asn1F f r
      else some (.error .unknownTag, r)

/-- From `octet_string.rs`: tree-node decode.  Reads tag, length and
payload, then speculatively decodes the payload with a fresh reader that is
given the parent's id counter (`set_next_id(reader.next_id())`) and the
parent's global offset (`set_offset(reader.full_offset())`, evaluated after
the payload was consumed); the child's final counter is fed back into the
parent, a nested failure is discarded (`.ok()`). -/
def OctetString.decode_asn1F : Nat → Reader → DecResult Asn1
  | 0, _ => none
  | f + 1, r =>
    match check_tag OctetString.compare_tags r with
    | (.error e, r1) => some (.error e, r1)
    | (.ok _, r1) =>
    match read_len r1 with
    | (.error e, r2) => some (.error e, r2)
    | (.ok (len, len_range), r2) =>
    match read_data r2 len with
    | (.error e, r3) => some (.error e, r3)
    | (.ok (data, data_range), r3) =>
      match r3.next_id with
      | (c, r4) =>
        match Asn1.decode f (((Reader.new data).set_next_id c).set_offset r4.full_offset) with
        | none => none
        | some (res, ir) =>
          match ir.next_id with
          | (v, _ir2) =>
            match (r4.set_next_id v).data_in_range r.position data_range.hi with
            | .error e => some (.error e, r4.set_next_id v)
            | .ok raw =>
              match (r4.set_next_id v).next_id with
              | (id, r5) =>
                some (.ok (.mk ⟨raw, r.full_offset, len_range, data_range⟩
                  (.octetString (.mk id data res.toOption))), r5)

/-- From `octet_string.rs`: value-only decode.  Same speculative nested
decode, but the fresh reader is only given the parent's id counter — no
`set_offset` call appears in this entry point, so the child keeps the
default global offset 0 of `Reader::new`. -/
def OctetString.decodeF : Nat → Reader → DecResult OctetString
  | 0, _ => none
  | f + 1, r =>
    match check_tag OctetString.compare_tags r with
    | (.error e, r1) => some (.error e, r1)
    | (.ok _, r1) =>
    match read_len r1 with
    | (.error e, r2) => some (.error e, r2)
    | (.ok (len, _len_range), r2) =>
    match r2.read len with
    | (.error e, r3) => some (.error e, r3)
    | (.ok data, r3) =>
      match r3.next_id with
      | (c, r4) =>
        match Asn1.decode f ((Reader.new data).set_next_id c) with
        | none => none
        | some (res, ir) =>
          match ir.next_id with
          | (v, _ir2) =>
            match (r4.set_next_id v).next_id with
            | (id, r5) =>
              some (.ok (.mk id data res.toOption), r5)

/-- From `tags/explicit.rs`: `ExplicitTag` value decode — the reader is
scoped to the payload; child tree nodes are decoded repeatedly until the
reader is exhausted, the first child failure propagating unchanged. -/
def ExplicitTag.decodeF : Nat → Tag → Reader → DecResult ExplicitTag
  | 0, _, _ => none
  | f + 1, t, r =>
    if r.empty then some (.ok (.mk t.v []), r)
    else
      match Asn1.decode f r with
      | none => none
      | some (.error e, r') => some (.error e, r')
      | some (.ok a, r') =>
        match ExplicitTag.decodeF f t r' with
        | none => none
        | some (.error e, r'') => some (.error e, r'')
        | some (.ok et, r'') => some (.ok (.mk et.tagByte (a :: et.inner)), r'')

/-- Modelled from the spec: the generic tree-node driver for the explicit
tag (§4.5, §4.8): reads tag and length, carves out the payload, decodes the
children from a payload reader that inherits the parent's id counter and
the absolute payload start as offset, feeds the counter back, and wraps the
result with the raw byte-range metadata. -/
def ExplicitTag.decode_asn1F : Nat → Reader → DecResult Asn1
  | 0, _ => none
  | f + 1, r =>
    match check_tag ExplicitTag.compare_tags r with
    | (.error e, r1) => some (.error e, r1)
    | (.ok tb, r1) =>
    match read_len r1 with
    | (.error e, r2) => some (.error e, r2)
    | (.ok (len, len_range), r2) =>
    match read_data r2 len with
    | (.error e, r3) => some (.error e, r3)
    | (.ok (data, data_range), r3) =>
      match ExplicitTag.decodeF f ⟨tb⟩
          (((Reader.new data).set_next_id r3.nextId).set_offset
            (r3.offset + data_range.lo)) with
      | none => none
      | some (.error e, ir) => some (.error e, r3.set_next_id ir.nextId)
      | some (.ok et, ir) =>
        match (r3.set_next_id ir.nextId).data_in_range r.position data_range.hi with
        | .error e => some (.error e, r3.set_next_id ir.nextId)
        | .ok raw =>
          some (.ok (.mk ⟨raw, r.full_offset, len_range, data_range⟩
            (.explicitTag et)), r3.set_next_id ir.nextId)

end

/-- From `octet_string.rs`: `needed_buf_size` is one tag byte plus the
length-field size plus the payload size. -/
def OctetString.needed_buf_size (s : OctetString) : Nat :=
  1 + len_size s.octets.length + s.octets.length

/-- From `octet_string.rs`: `encode` writes the tag byte, the length of the
raw octets, then the octets verbatim (the nested decode result is not
re-serialized). -/
def OctetString.encode (s : OctetString) (w : Writer) : Except Error Writer := do
  let w ← w.write_byte OctetString.TAG.v
  let w ← write_len s.octets.length w
  w.write_slice s.octets

/-- From `utf8_string.rs`: `needed_buf_size` is one tag byte plus the
length-field size plus the string byte length. -/
def Utf8String.needed_buf_size (s : Utf8String) : Nat :=
  1 + len_size s.string.length + s.string.length

/-- From `utf8_string.rs`: `encode` writes the tag byte, the byte length of
the string, then the UTF-8 bytes verbatim. -/
def Utf8String.encode (s : Utf8String) (w : Writer) : Except Error Writer := do
  let w ← w.write_byte Utf8String.TAG.v
  let w ← write_len s.string.length w
  w.write_slice s.string

mutual

/-- Modelled from the spec: a tree node's needed size is its payload's
needed size (§4.5; `Asn1` delegates to its concrete payload). -/
def Asn1.needed_buf_size : Asn1 → Nat
  | .mk _ t => Asn1Type.needed_buf_size t

/-- Dispatch of `needed_buf_size` over the union. -/
def Asn1Type.needed_buf_size : Asn1Type → Nat
  | .octetString s => OctetString.needed_buf_size s
  | .utf8String s => Utf8String.needed_buf_size s
  | .explicitTag e => ExplicitTag.needed_buf_size e

/-- From `tags/explicit.rs`: `needed_buf_size` is one tag byte plus the
length-field size plus the summed sizes of the children. -/
def ExplicitTag.needed_buf_size : ExplicitTag → Nat
  | .mk _ inner => 1 + len_size (sumNeeded inner) + sumNeeded inner

/-- The sum `inner.iter().map(|f| f.needed_buf_size()).sum()`. -/
def sumNeeded : List Asn1 → Nat
  | [] => 0
  | a :: rest => Asn1.needed_buf_size a + sumNeeded rest

end

mutual

/-- Modelled from the spec: a tree node encodes as its concrete payload. -/
def Asn1.encode : Asn1 → Writer → Except Error Writer
  | .mk _ t, w => Asn1Type.encode t w

/-- Dispatch of `encode` over the union. -/
def Asn1Type.encode : Asn1Type → Writer → Except Error Writer
  | .octetString s, w => OctetString.encode s w
  | .utf8String s, w => Utf8String.encode s w
  | .explicitTag e, w => ExplicitTag.encode e w

/-- From `tags/explicit.rs`: `encode` writes the stored tag byte, the
summed length of all children, then each child in original order. -/
def ExplicitTag.encode : ExplicitTag → Writer → Except Error Writer
  | .mk tag inner, w =>
    match w.write_byte tag with
    | .error e => .error e
    | .ok w =>
      match write_len (sumNeeded inner) w with
      | .error e => .error e
      | .ok w => encodeList inner w

/-- The children encode `inner.iter().try_for_each(|f| f.encode(writer))`. -/
def encodeList : List Asn1 → Writer → Except Error Writer
  | [], w => .ok w
  | a :: rest, w =>
    match Asn1.encode a w with
    | .error e => .error e
    | .ok w' => encodeList rest w'

end

/-- From `lib.rs` (`Asn1Encode::encode_buff`): encode into a caller-sized
buffer; the final buffer contents model Rust's in-place mutation. -/
def Asn1Type.encode_buff (t : Asn1Type) (buf : List Nat) : Except Error (List Nat) :=
  (Asn1Type.encode t (Writer.new buf)).map Writer.buf

/-- `encode_buff` at the tree-node level. -/
def Asn1.encode_buff (a : Asn1) (buf : List Nat) : Except Error (List Nat) :=
  (Asn1.encode a (Writer.new buf)).map Writer.buf

mutual

/-- The ids stamped in a decoded tree, listed in the order in which the
decoders assign them: a node's id comes after the ids of its nested
content (the id is assigned to the completing node).  Explicit-tag values
carry no id field in `tags/explicit.rs`, so they contribute only the ids
of their children. -/
def Asn1.idsPost : Asn1 → List Nat
  | .mk _ t => Asn1Type.idsPost t

/-- Assignment-ordered ids of a union payload. -/
def Asn1Type.idsPost : Asn1Type → List Nat
  | .octetString (.mk id _ (some a)) => Asn1.idsPost a ++ [id]
  | .octetString (.mk id _ none) => [id]
  | .utf8String s => [s.id]
  | .explicitTag (.mk _ inner) => idsPostList inner

/-- Assignment-ordered ids of a child list. -/
def idsPostList : List Asn1 → List Nat
  | [] => []
  | a :: rest => Asn1.idsPost a ++ idsPostList rest

end

mutual

/-- Whether every length field recorded in a decoded tree uses the minimal
number of octets `len_size` would pick for its payload size: the length
byte range of the node's metadata spans exactly `len_size` bytes of the
payload range's size, recursively for explicit-tag children.  (The nested
view of an octet string is not re-serialized, so it is not constrained.) -/
def Asn1.minimalLens : Asn1 → Bool
  | .mk raw t =>
    (raw.length.hi - raw.length.lo == len_size (raw.data.hi - raw.data.lo)) &&
      Asn1Type.minimalLens t

/-- Minimal-length-field check of a union payload. -/
def Asn1Type.minimalLens : Asn1Type → Bool
  | .octetString _ => true
  | .utf8String _ => true
  | .explicitTag (.mk _ inner) => minimalLensList inner

/-- Minimal-length-field check of a child list. -/
def minimalLensList : List Asn1 → Bool
  | [] => true
  | a :: rest => Asn1.minimalLens a && minimalLensList rest

end

mutual

/-- The exact byte string a tree node's `encode` emits: tag byte, minimal
length octets, payload (children in order for an explicit tag; the raw
octets for an octet string — its nested view is not re-serialized). -/
def Asn1.encBytes : Asn1 → List Nat
  | .mk _ t => Asn1Type.encBytes t

/-- Emitted bytes of a union payload. -/
def Asn1Type.encBytes : Asn1Type → List Nat
  | .octetString (.mk _ oc _) =>
    OctetString.TAG.v :: (write_len_bytes oc.length ++ oc)
  | .utf8String s => Utf8String.TAG.v :: (write_len_bytes s.string.length ++ s.string)
  | .explicitTag (.mk tg inner) =>
    tg :: (write_len_bytes (sumNeeded inner) ++ encBytesList inner)

/-- Emitted bytes of a child list, concatenated in order. -/
def encBytesList : List Asn1 → List Nat
  | [] => []
  | a :: rest => Asn1.encBytes a ++ encBytesList rest

end

/-- A sequential child-decode chain: the reader decodes one tree node after
another until it is exhausted (used to state the explicit-tag loop). -/
inductive DecodeSeq : Reader → List Asn1 → Reader → Prop where
  | nil {r : Reader} (h : r.empty = true) : DecodeSeq r [] r
  | cons {r r1 r' : Reader} {a : Asn1} {as : List Asn1} {g : Nat}
      (hne : r.empty = false)
      (hd : Asn1.decode g r = some (.ok a, r1))
      (ht : DecodeSeq r1 as r') : DecodeSeq r (a :: as) r'

/-- Ids listed in assignment order are strictly increasing and lie in the
half-open counter window `[c0, c1)`. -/
def IdsOk (c0 c1 : Nat) (ids : List Nat) : Prop :=
  ids.Pairwise (· < ·) ∧ ∀ i ∈ ids, c0 ≤ i ∧ i < c1

/-! ### Arithmetic facts about the big-endian length helpers -/

theorem byteCount_pos (n : Nat) : 1 ≤ byteCount n := by
  unfold byteCount; split <;> omega

theorem byteCount_lt (n : Nat) : n < 256 ^ byteCount n := by
  induction n using Nat.strong_induction_on with
  | _ n ih =>
    unfold byteCount
    split
    · simpa using by omega
    · rename_i h
      have hd : n / 256 < n := Nat.div_lt_self (by omega) (by omega)
      have := ih (n / 256) hd
      have h256 : 256 * (n / 256) + n % 256 = n := Nat.div_add_mod n 256
      have hlt : n < 256 * 256 ^ byteCount (n / 256) := by
        have hm : n % 256 < 256 := Nat.mod_lt _ (by omega)
        nlinarith [this]
      calc n < 256 * 256 ^ byteCount (n / 256) := hlt
        _ = 256 ^ (1 + byteCount (n / 256)) := by rw [pow_add, pow_one]

theorem byteCount_le (n k : Nat) (hk : 1 ≤ k) (h : n < 256 ^ k) :
    byteCount n ≤ k := by
  induction k generalizing n with
  | zero => omega
  | succ k ih =>
    unfold byteCount
    split
    · omega
    · rename_i hn
      have hk1 : 1 ≤ k := by
        by_contra hk0
        have : k = 0 := by omega
        subst this
        simp at h; omega
      have : n / 256 < 256 ^ k := by
        rw [Nat.div_lt_iff_lt_mul (by omega : (0:Nat) < 256)]
        calc n < 256 ^ (k + 1) := h
          _ = 256 ^ k * 256 := by rw [pow_succ]
      have := ih (n / 256) hk1 this
      omega

theorem beBytesAux_length (k n : Nat) : (beBytesAux k n).length = k := by
  induction k generalizing n with
  | zero => rfl
  | succ k ih => simp [beBytesAux, ih]

theorem beBytesAux_lt (k n : Nat) : ∀ b ∈ beBytesAux k n, b < 256 := by
  induction k generalizing n with
  | zero => simp [beBytesAux]
  | succ k ih =>
    intro b hb
    simp only [beBytesAux, List.mem_append, List.mem_singleton] at hb
    rcases hb with hb | hb
    · exact ih _ _ hb
    · subst hb; exact Nat.mod_lt _ (by omega)

theorem fromBE_append_singleton (xs : List Nat) (b : Nat) :
    fromBE (xs ++ [b]) = fromBE xs * 256 + b := by
  simp [fromBE, List.foldl_append]

theorem fromBE_beBytesAux (k : Nat) : ∀ n, fromBE (beBytesAux k n) = n % 256 ^ k := by
  induction k with
  | zero => intro n; simp [beBytesAux, fromBE, Nat.mod_one]
  | succ k ih =>
    intro n
    rw [show beBytesAux (k + 1) n = beBytesAux k (n / 256) ++ [n % 256] from rfl,
      fromBE_append_singleton, ih]
    have hmm : n % (256 * 256 ^ k) = n % 256 + 256 * (n / 256 % 256 ^ k) := Nat.mod_mul
    have hpow : (256 : Nat) ^ (k + 1) = 256 * 256 ^ k := by rw [pow_succ, Nat.mul_comm]
    rw [hpow, hmm]; ring

theorem fromBE_beBytes (n : Nat) : fromBE (beBytes n) = n := by
  rw [beBytes, fromBE_beBytesAux]
  exact Nat.mod_eq_of_lt (byteCount_lt n)

theorem beBytesAux_fromBE (bytes : List Nat) (hb : ∀ b ∈ bytes, b < 256) :
    beBytesAux bytes.length (fromBE bytes) = bytes := by
  induction bytes using List.reverseRecOn with
  | nil => rfl
  | append_singleton xs b ih =>
    have hbx : ∀ x ∈ xs, x < 256 := fun x hx => hb x (by simp [hx])
    have hblt : b < 256 := hb b (by simp)
    rw [fromBE_append_singleton]
    have hlen : (xs ++ [b]).length = xs.length + 1 := by simp
    rw [hlen]
    show beBytesAux xs.length ((fromBE xs * 256 + b) / 256) ++
      [(fromBE xs * 256 + b) % 256] = xs ++ [b]
    have hdiv : (fromBE xs * 256 + b) / 256 = fromBE xs := by omega
    have hmod : (fromBE xs * 256 + b) % 256 = b := by omega
    rw [hdiv, hmod, ih hbx]

theorem write_len_bytes_length (n : Nat) : (write_len_bytes n).length = len_size n := by
  unfold write_len_bytes len_size
  by_cases h : n < 128
  · simp [h]
  · simp only [if_neg h, List.length_cons, beBytes, beBytesAux_length]
    omega

set_option maxRecDepth 4000 in
theorem or_128_eq_add : ∀ c < 128, (128 ||| c) = 128 + c := by decide

set_option maxRecDepth 8000 in
theorem and_127_eq_sub : ∀ b < 256, 128 ≤ b → b &&& 127 = b - 128 := by decide

/-! ### Writer lemmas -/

theorem splice_nil (buf : List Nat) (p : Nat) : splice buf p [] = buf := by
  simp [splice]

theorem Writer.write_byte_ok {w : Writer} {b : Nat} {w' : Writer}
    (h : w.write_byte b = .ok w') :
    w.pos < w.buf.length ∧ w' = ⟨w.buf.set w.pos b, w.pos + 1⟩ := by
  unfold Writer.write_byte at h
  split at h
  · exact ⟨by assumption, by cases h; rfl⟩
  · cases h

theorem Writer.write_slice_ok {bs : List Nat} {w w' : Writer}
    (h : w.write_slice bs = .ok w') :
    w'.pos = w.pos + bs.length ∧ w'.buf.length = w.buf.length := by
  induction bs generalizing w with
  | nil => simp [Writer.write_slice] at h; simp [← h]
  | cons b rest ih =>
    simp only [Writer.write_slice, bind, Except.bind] at h
    match hwb : w.write_byte b with
    | .error e => rw [hwb] at h; cases h
    | .ok w1 =>
      rw [hwb] at h
      obtain ⟨hlt, rfl⟩ := Writer.write_byte_ok hwb
      have := ih h
      simp at this
      simp [this]; omega

theorem Writer.write_slice_spec (bs : List Nat) (w : Writer)
    (h : w.pos + bs.length ≤ w.buf.length) :
    w.write_slice bs = .ok ⟨splice w.buf w.pos bs, w.pos + bs.length⟩ := by
  induction bs generalizing w with
  | nil => simp [Writer.write_slice, splice_nil]
  | cons b rest ih =>
    have hlt : w.pos < w.buf.length := by simp at h; omega
    have hwb : w.write_byte b = .ok ⟨w.buf.set w.pos b, w.pos + 1⟩ := by
      unfold Writer.write_byte; simp [hlt]
    simp only [Writer.write_slice, hwb, bind, Except.bind]
    have hlen : (w.buf.set w.pos b).length = w.buf.length := by simp
    have hle : w.pos + 1 + rest.length ≤ (w.buf.set w.pos b).length := by
      simp at h ⊢; omega
    rw [ih ⟨w.buf.set w.pos b, w.pos + 1⟩ hle]
    have hset : w.buf.set w.pos b = w.buf.take w.pos ++ b :: w.buf.drop (w.pos + 1) :=
      List.set_eq_take_cons_drop b hlt
    have hsplice : splice (w.buf.set w.pos b) (w.pos + 1) rest =
        splice w.buf w.pos (b :: rest) := by
      unfold splice
      rw [hset]
      have htake : (w.buf.take w.pos ++ b :: w.buf.drop (w.pos + 1)).take (w.pos + 1) =
          w.buf.take w.pos ++ [b] := by
        rw [show w.buf.take w.pos ++ b :: w.buf.drop (w.pos + 1) =
          (w.buf.take w.pos ++ [b]) ++ w.buf.drop (w.pos + 1) by simp]
        rw [List.take_left' (by simp; omega)]
      have hdrop : (w.buf.take w.pos ++ b :: w.buf.drop (w.pos + 1)).drop
          (w.pos + 1 + rest.length) = w.buf.drop (w.pos + (b :: rest).length) := by
        rw [show w.buf.take w.pos ++ b :: w.buf.drop (w.pos + 1) =
          (w.buf.take w.pos ++ [b]) ++ w.buf.drop (w.pos + 1) by simp]
        rw [show w.pos + 1 + rest.length =
          (w.buf.take w.pos ++ [b]).length + rest.length by simp; omega]
        rw [List.drop_append, List.drop_drop]
        congr 1
        simp
        omega
      rw [htake, hdrop]
      simp
    have hpos : w.pos + 1 + rest.length = w.pos + (b :: rest).length := by
      simp
      omega
    show Except.ok (⟨splice (w.buf.set w.pos b) (w.pos + 1) rest,
      w.pos + 1 + rest.length⟩ : Writer) = _
    rw [hsplice, hpos]

theorem write_len_eq (n : Nat) (w : Writer) :
    write_len n w = w.write_slice (write_len_bytes n) := by
  by_cases h : n < 128
  · simp only [write_len, write_len_bytes, if_pos h, Writer.write_slice, bind, Except.bind]
    cases hwb : w.write_byte n <;> simp [Writer.write_slice]
  · simp only [write_len, write_len_bytes, if_neg h, Writer.write_slice, bind, Except.bind]

theorem write_len_ok {n : Nat} {w w' : Writer} (h : write_len n w = .ok w') :
    w'.pos = w.pos + len_size n ∧ w'.buf.length = w.buf.length := by
  rw [write_len_eq] at h
  have := Writer.write_slice_ok h
  rwa [write_len_bytes_length] at this

theorem write_len_spec (n : Nat) (w : Writer)
    (h : w.pos + len_size n ≤ w.buf.length) :
    write_len n w = .ok ⟨splice w.buf w.pos (write_len_bytes n), w.pos + len_size n⟩ := by
  rw [write_len_eq]
  have := Writer.write_slice_spec (write_len_bytes n) w (by rwa [write_len_bytes_length])
  rwa [write_len_bytes_length] at this

/-! ### Reader stage lemmas -/

theorem Reader.read_ok {r : Reader} {n : Nat} {d : List Nat} {r' : Reader}
    (h : r.read n = (.ok d, r')) :
    r.pos + n ≤ r.data.length ∧ d = (r.data.drop r.pos).take n ∧
      r' = { r with pos := r.pos + n } := by
  unfold Reader.read at h
  split at h
  · obtain ⟨h1, h2⟩ := Prod.mk.injEq .. ▸ h
    exact ⟨by assumption, by simp_all, h2.symm ▸ rfl⟩
  · cases h

theorem Reader.read1_ok {r : Reader} {b : Nat} {r' : Reader}
    (h : r.read1 = (.ok b, r')) :
    r.data[r.pos]? = some b ∧ r' = { r with pos := r.pos + 1 } := by
  unfold Reader.read1 at h
  split at h
  · rename_i b' hb'
    obtain ⟨h1, h2⟩ := Prod.mk.injEq .. ▸ h
    cases h1
    exact ⟨hb', h2.symm ▸ rfl⟩
  · cases h

theorem Reader.peek_ok {r : Reader} {b : Nat} (h : r.peek = .ok b) :
    r.data[r.pos]? = some b := by
  unfold Reader.peek at h
  split at h
  · rename_i b' hb'; cases h; exact hb'
  · cases h

theorem check_tag_ok {p : Tag → Bool} {r : Reader} {b : Nat} {r' : Reader}
    (h : check_tag p r = (.ok b, r')) :
    r.data[r.pos]? = some b ∧ p ⟨b⟩ = true ∧ r' = { r with pos := r.pos + 1 } := by
  unfold check_tag at h
  split at h
  · cases h
  · rename_i b' r1 hr1
    split at h
    · obtain ⟨h1, h2⟩ := Prod.mk.injEq .. ▸ h
      cases h1
      obtain ⟨hb, hr⟩ := Reader.read1_ok hr1
      exact ⟨hb, by assumption, h2.symm ▸ hr⟩
    · cases h

theorem read_data_ok {r : Reader} {len : Nat} {d : List Nat} {rg : ARange} {r' : Reader}
    (h : read_data r len = (.ok (d, rg), r')) :
    r.pos + len ≤ r.data.length ∧ d = (r.data.drop r.pos).take len ∧
      rg = ⟨r.pos, r.pos + len⟩ ∧ r' = { r with pos := r.pos + len } := by
  unfold read_data at h
  split at h
  · cases h
  · rename_i d' r1 hr1
    obtain ⟨hle, hd, hr⟩ := Reader.read_ok hr1
    obtain ⟨h1, h2⟩ := Prod.mk.injEq .. ▸ h
    cases h1
    subst hr
    exact ⟨hle, hd, rfl, h2.symm ▸ rfl⟩

theorem Reader.data_in_range_ok {r : Reader} {a b : Nat} {d : List Nat}
    (h : r.data_in_range a b = .ok d) :
    a ≤ b ∧ b ≤ r.data.length ∧ d = (r.data.drop a).take (b - a) := by
  unfold Reader.data_in_range at h
  split at h
  · cases h; rename_i hc; exact ⟨hc.1, hc.2, rfl⟩
  · cases h

theorem read_len_ok {r : Reader} {n : Nat} {rg : ARange} {r' : Reader}
    (h : read_len r = (.ok (n, rg), r')) :
    r'.data = r.data ∧ r'.offset = r.offset ∧ r'.nextId = r.nextId ∧
      rg = ⟨r.pos, r'.pos⟩ ∧ r.pos < r'.pos ∧ r'.pos ≤ r.data.length := by
  unfold read_len at h
  split at h
  · cases h
  · rename_i b r1 hr1
    obtain ⟨hb, hr1e⟩ := Reader.read1_ok hr1
    have hlt : r.pos < r.data.length := by
      by_contra hge
      rw [List.getElem?_eq_none (by omega)] at hb
      cases hb
    split at h
    · obtain ⟨h1, h2⟩ := Prod.mk.injEq .. ▸ h
      cases h1
      subst hr1e
      cases h2
      exact ⟨rfl, rfl, rfl, rfl, Nat.lt_succ_self _, hlt⟩
    · split at h
      · cases h
      · split at h
        · cases h
        · split at h
          · cases h
          · rename_i bytes r2 hr2
            obtain ⟨hle, hby, hr2e⟩ := Reader.read_ok hr2
            obtain ⟨h1, h2⟩ := Prod.mk.injEq .. ▸ h
            cases h1
            subst hr1e hr2e
            cases h2
            exact ⟨rfl, rfl, rfl, rfl, by show r.pos < r.pos + 1 + _; omega,
              by simpa using hle⟩

theorem read_len_minimal {r : Reader} {n : Nat} {rg : ARange} {r' : Reader}
    (h : read_len r = (.ok (n, rg), r'))
    (hbytes : ∀ b ∈ r.data, b < 256)
    (hmin : r'.pos - r.pos = len_size n) :
    (r.data.drop r.pos).take (r'.pos - r.pos) = write_len_bytes n := by
  unfold read_len at h
  split at h
  · cases h
  · rename_i b r1 hr1
    obtain ⟨hb, hr1e⟩ := Reader.read1_ok hr1
    have hlt : r.pos < r.data.length := by
      by_contra hge
      rw [List.getElem?_eq_none (by omega)] at hb
      cases hb
    have hbval : r.data[r.pos] = b := by
      rw [List.getElem?_eq_getElem hlt] at hb
      exact Option.some.injEq .. ▸ hb
    have hdropc : r.data.drop r.pos = b :: r.data.drop (r.pos + 1) := by
      rw [List.drop_eq_getElem_cons hlt, hbval]
    split at h
    · rename_i hshort
      obtain ⟨h1, h2⟩ := Prod.mk.injEq .. ▸ h
      cases h1
      subst hr1e
      cases h2
      rw [show ({ r with pos := r.pos + 1 } : Reader).pos - r.pos = 1 by
        show r.pos + 1 - r.pos = 1; omega]
      rw [hdropc]
      simp [write_len_bytes, hshort]
    · rename_i hlong
      split at h
      · cases h
      · split at h
        · cases h
        · split at h
          · cases h
          · rename_i hcnt0 hcnt8 bytes r2 hr2
            obtain ⟨hle, hby, hr2e⟩ := Reader.read_ok hr2
            obtain ⟨h1, h2⟩ := Prod.mk.injEq .. ▸ h
            cases h1
            subst hr1e hr2e
            cases h2
            have hblt : b < 256 := hbytes b (by
              have := List.getElem_mem hlt
              rwa [hbval] at this)
            have hb128 : 128 ≤ b := by omega
            have hand : b &&& 127 = b - 128 := and_127_eq_sub b hblt hb128
            have hposr : ({ r with pos := r.pos + 1 } : Reader).pos + (b &&& 127) - r.pos
                = 1 + (b &&& 127) := by
              show r.pos + 1 + (b &&& 127) - r.pos = 1 + (b &&& 127)
              omega
            rw [hposr] at hmin ⊢
            by_cases hnsmall : fromBE bytes < 128
            · rw [len_size, if_pos hnsmall] at hmin
              omega
            · rw [len_size, if_neg hnsmall] at hmin
              have hcntbc : b &&& 127 = byteCount (fromBE bytes) := by omega
              have hbyteslen : bytes.length = b &&& 127 := by
                rw [hby]
                simp only [List.length_take, List.length_drop]
                simp at hle
                omega
              have hbytes256 : ∀ x ∈ bytes, x < 256 := by
                intro x hx
                apply hbytes
                rw [hby] at hx
                exact List.mem_of_mem_drop (List.mem_of_mem_take hx)
              have hbe : beBytes (fromBE bytes) = bytes := by
                rw [beBytes, ← hcntbc, ← hbyteslen]
                exact beBytesAux_fromBE bytes hbytes256
              have hbor : b = 128 ||| byteCount (fromBE bytes) := by
                rw [or_128_eq_add _ (by omega)]
                omega
              rw [hdropc]
              rw [show (1 + (b &&& 127) : Nat) = (b &&& 127) + 1 by omega]
              rw [List.take_succ_cons]
              rw [write_len_bytes, if_neg hnsmall, ← hbor, hbe, hby]

/-! ### The length codec round-trip (spec §8, claim C3) -/

theorem read_len_write_len_bytes (n : Nat) (hn : n < 2 ^ 32) :
    read_len (Reader.new (write_len_bytes n)) =
      (.ok (n, ⟨0, len_size n⟩), ⟨write_len_bytes n, len_size n, 0, 0⟩) := by
  have hbc4 : byteCount n ≤ 4 := byteCount_le n 4 (by omega)
    (by norm_num at hn ⊢; omega)
  have hbc1 : 1 ≤ byteCount n := byteCount_pos n
  by_cases h : n < 128
  · simp only [write_len_bytes, if_pos h, len_size]
    simp [read_len, Reader.new, Reader.read1, h]
  · have hor : (128 ||| byteCount n) = 128 + byteCount n := or_128_eq_add _ (by omega)
    have hand : (128 + byteCount n) &&& 127 = byteCount n := by
      have := and_127_eq_sub (128 + byteCount n) (by omega) (by omega)
      omega
    have hlen : (beBytes n).length = byteCount n := by
      simp [beBytes, beBytesAux_length]
    simp only [write_len_bytes, if_neg h, len_size]
    simp only [read_len, Reader.new, Reader.read1, List.getElem?_cons_zero]
    rw [hor, hand]
    rw [if_neg (by omega : ¬ (128 + byteCount n < 128))]
    rw [if_neg (by omega : ¬ (byteCount n = 0))]
    rw [if_neg (by omega : ¬ (8 < byteCount n))]
    have hread : (⟨(128 + byteCount n) :: beBytes n, 0 + 1, 0, 0⟩ : Reader).read
        (byteCount n) = (.ok (beBytes n),
          ⟨(128 + byteCount n) :: beBytes n, 0 + 1 + byteCount n, 0, 0⟩) := by
      unfold Reader.read
      rw [if_pos (by simp [hlen]; omega)]
      simp only [List.drop_succ_cons, List.drop_zero]
      rw [← hlen, List.take_length]
    rw [hread]
    show (Except.ok (fromBE (beBytes n), ARange.mk 0 (0 + 1 + byteCount n)),
      (⟨(128 + byteCount n) :: beBytes n, 0 + 1 + byteCount n, 0, 0⟩ : Reader)) = _
    rw [fromBE_beBytes]

/-- C3: for every `n` below `2^32`, `write_len` emits exactly `len_size n`
octets (filling a buffer of exactly that size, final write position
`len_size n`), and `read_len` over those octets yields `n` again. -/
theorem C3_len_codec_inverse (n : Nat) (hn : n < 2 ^ 32) :
    write_len n (Writer.new (List.replicate (len_size n) 0)) =
      .ok ⟨write_len_bytes n, len_size n⟩ ∧
    (write_len_bytes n).length = len_size n ∧
    read_len (Reader.new (write_len_bytes n)) =
      (.ok (n, ⟨0, len_size n⟩), ⟨write_len_bytes n, len_size n, 0, 0⟩) := by
  refine ⟨?_, write_len_bytes_length n, read_len_write_len_bytes n hn⟩
  have hspec := write_len_spec n (Writer.new (List.replicate (len_size n) 0))
    (by simp [Writer.new])
  rw [hspec]
  congr 1
  unfold splice
  simp [Writer.new, write_len_bytes_length]

/-- Witness for C3 at a concrete long-form value. -/
theorem C3_len_codec_inverse_witness :
    (1000000 : Nat) < 2 ^ 32 ∧
    (write_len 1000000 (Writer.new (List.replicate (len_size 1000000) 0)) =
      .ok ⟨write_len_bytes 1000000, len_size 1000000⟩ ∧
    (write_len_bytes 1000000).length = len_size 1000000 ∧
    read_len (Reader.new (write_len_bytes 1000000)) =
      (.ok (1000000, ⟨0, len_size 1000000⟩),
        ⟨write_len_bytes 1000000, len_size 1000000, 0, 0⟩)) :=
  ⟨by norm_num, C3_len_codec_inverse 1000000 (by norm_num)⟩

/-! ### Success characterizations of the decoders -/

theorem Utf8String.decode_asn1_ok {r : Reader} {a : Asn1} {r' : Reader}
    (h : Utf8String.decode_asn1 r = (.ok a, r')) :
    ∃ len lhi,
      r.data[r.pos]? = some 12 ∧
      read_len { r with pos := r.pos + 1 } =
        (.ok (len, ⟨r.pos + 1, lhi⟩), { r with pos := lhi }) ∧
      r.pos + 1 ≤ lhi ∧ lhi + len ≤ r.data.length ∧
      utf8Valid ((r.data.drop lhi).take len) = true ∧
      a = .mk ⟨(r.data.drop r.pos).take (lhi + len - r.pos), r.full_offset,
          ⟨r.pos + 1, lhi⟩, ⟨lhi, lhi + len⟩⟩
          (.utf8String ⟨r.nextId, (r.data.drop lhi).take len⟩) ∧
      r' = { r with pos := lhi + len, nextId := r.nextId + 1 } := by
  unfold Utf8String.decode_asn1 at h
  split at h
  · cases h
  · rename_i b r1 hct
    obtain ⟨hb, hp, hr1⟩ := check_tag_ok hct
    have hb12 : b = 12 := by
      simp [Utf8String.compare_tags, Utf8String.TAG, Tag.mk.injEq] at hp
      omega
    subst hb12 hr1
    split at h
    · cases h
    · rename_i len lr r2 hrl
      obtain ⟨hd2, ho2, hn2, hlr, hp2, hb2⟩ := read_len_ok hrl
      split at h
      · cases h
      · rename_i data dr r3 hrd
        obtain ⟨hb3, hdata, hdr, hr3⟩ := read_data_ok hrd
        split at h
        · cases h
        · rename_i raw hdir
          obtain ⟨hab, hbl, hraw⟩ := Reader.data_in_range_ok hdir
          simp only [Reader.next_id] at h
          unfold from_utf8 at h
          split at h
          · cases h
          · rename_i s hval
            obtain ⟨h1, h2⟩ := Prod.mk.injEq .. ▸ h
            cases h1
            subst h2
            have hvs : utf8Valid data = true ∧ s = data := by
              by_cases hv : utf8Valid data = true
              · rw [if_pos hv] at hval; cases hval; exact ⟨hv, rfl⟩
              · rw [if_neg hv] at hval; cases hval
            obtain ⟨hv, hs⟩ := hvs
            subst hs
            refine ⟨len, r2.pos, hb, ?_, le_of_lt hp2, ?_, ?_, ?_, ?_⟩
            · have hr2e : ({ r with pos := r2.pos } : Reader) = r2 := by
                obtain ⟨d2, p2, o2, n2⟩ := r2
                simp only [Reader.mk.injEq]
                exact ⟨hd2.symm, trivial, ho2.symm, hn2.symm⟩
              rw [hr2e, ← hlr]
              exact hrl
            · rw [hd2] at hb3
              exact hb3
            · rw [hdata, hd2] at hv
              exact hv
            · subst hr3 hdr hlr hdata hraw
              rw [hd2, hn2]
              rfl
            · subst hr3
              rw [hd2, ho2, hn2]

theorem OctetString.decode_asn1F_ok {f : Nat} {r : Reader} {a : Asn1} {r' : Reader}
    (h : OctetString.decode_asn1F (f + 1) r = some (.ok a, r')) :
    ∃ len lhi res ir,
      r.data[r.pos]? = some 4 ∧
      read_len { r with pos := r.pos + 1 } =
        (.ok (len, ⟨r.pos + 1, lhi⟩), { r with pos := lhi }) ∧
      r.pos + 1 ≤ lhi ∧ lhi + len ≤ r.data.length ∧
      Asn1.decode f ⟨(r.data.drop lhi).take len, 0, r.offset + (lhi + len), r.nextId⟩
        = some (res, ir) ∧
      a = .mk ⟨(r.data.drop r.pos).take (lhi + len - r.pos), r.full_offset,
          ⟨r.pos + 1, lhi⟩, ⟨lhi, lhi + len⟩⟩
          (.octetString (.mk ir.nextId ((r.data.drop lhi).take len) res.toOption)) ∧
      r' = { r with pos := lhi + len, nextId := ir.nextId + 1 } := by
  unfold OctetString.decode_asn1F at h
  split at h
  · cases h
  · rename_i b r1 hct
    obtain ⟨hb, hp, hr1⟩ := check_tag_ok hct
    have hb4 : b = 4 := by
      simp [OctetString.compare_tags, OctetString.TAG, Tag.mk.injEq] at hp
      omega
    subst hb4 hr1
    split at h
    · cases h
    · rename_i len lr r2 hrl
      obtain ⟨hd2, ho2, hn2, hlr, hp2, hb2⟩ := read_len_ok hrl
      split at h
      · cases h
      · rename_i data dr r3 hrd
        obtain ⟨hb3, hdata, hdr, hr3⟩ := read_data_ok hrd
        simp only [Reader.next_id, Reader.new, Reader.set_next_id, Reader.set_offset,
          Reader.full_offset] at h
        split at h
        · cases h
        · rename_i res ir hnest
          split at h
          · cases h
          · rename_i raw hdir
            obtain ⟨hab, hbl, hraw⟩ := Reader.data_in_range_ok hdir
            rw [Option.some.injEq, Prod.mk.injEq] at h
            obtain ⟨h1, h2⟩ := h
            cases h1
            subst h2
            refine ⟨len, r2.pos, res, ir, hb, ?_, le_of_lt hp2, ?_, ?_, ?_, ?_⟩
            · have hr2e : ({ r with pos := r2.pos } : Reader) = r2 := by
                obtain ⟨d2, p2, o2, n2⟩ := r2
                simp only [Reader.mk.injEq]
                exact ⟨hd2.symm, trivial, ho2.symm, hn2.symm⟩
              rw [hr2e, ← hlr]
              exact hrl
            · rw [hd2] at hb3
              exact hb3
            · subst hr3 hdata
              dsimp only at hnest
              rw [hd2, ho2, hn2] at hnest
              exact hnest
            · subst_vars
              dsimp only
              rw [hd2]
              rfl
            · subst_vars
              dsimp only
              rw [hd2, ho2]

theorem OctetString.decodeF_ok {f : Nat} {r : Reader} {oc : OctetString} {r' : Reader}
    (h : OctetString.decodeF (f + 1) r = some (.ok oc, r')) :
    ∃ len lhi res ir,
      r.data[r.pos]? = some 4 ∧
      read_len { r with pos := r.pos + 1 } =
        (.ok (len, ⟨r.pos + 1, lhi⟩), { r with pos := lhi }) ∧
      r.pos + 1 ≤ lhi ∧ lhi + len ≤ r.data.length ∧
      Asn1.decode f ⟨(r.data.drop lhi).take len, 0, 0, r.nextId⟩ = some (res, ir) ∧
      oc = .mk ir.nextId ((r.data.drop lhi).take len) res.toOption ∧
      r' = { r with pos := lhi + len, nextId := ir.nextId + 1 } := by
  simp only [OctetString.decodeF] at h
  split at h
  · cases h
  · rename_i b r1 hct
    obtain ⟨hb, hp, hr1⟩ := check_tag_ok hct
    have hb4 : b = 4 := by
      simp [OctetString.compare_tags, OctetString.TAG, Tag.mk.injEq] at hp
      omega
    subst hb4 hr1
    split at h
    · cases h
    · rename_i len lr r2 hrl
      obtain ⟨hd2, ho2, hn2, hlr, hp2, hb2⟩ := read_len_ok hrl
      split at h
      · cases h
      · rename_i data r3 hrd
        obtain ⟨hb3, hdata, hr3⟩ := Reader.read_ok hrd
        simp only [Reader.next_id, Reader.new, Reader.set_next_id] at h
        split at h
        · cases h
        · rename_i res ir hnest
          rw [Option.some.injEq, Prod.mk.injEq] at h
          obtain ⟨h1, h2⟩ := h
          cases h1
          subst h2
          refine ⟨len, r2.pos, res, ir, hb, ?_, le_of_lt hp2, ?_, ?_, ?_, ?_⟩
          · have hr2e : ({ r with pos := r2.pos } : Reader) = r2 := by
              obtain ⟨d2, p2, o2, n2⟩ := r2
              simp only [Reader.mk.injEq]
              exact ⟨hd2.symm, trivial, ho2.symm, hn2.symm⟩
            rw [hr2e, ← hlr]
            exact hrl
          · rw [hd2] at hb3
            exact hb3
          · subst_vars
            try dsimp only at hnest
            try rw [hd2] at hnest
            try rw [hn2] at hnest
            exact hnest
          · subst_vars
            try dsimp only
            try rw [hd2]
            try rfl
          · subst_vars
            try dsimp only
            try rw [hd2]
            try rw [ho2]
            try rfl

theorem ExplicitTag.decode_asn1F_success {f : Nat} {r : Reader} {a : Asn1} {r' : Reader}
    (h : ExplicitTag.decode_asn1F (f + 1) r = some (.ok a, r')) :
    ∃ b len lhi et ir,
      r.data[r.pos]? = some b ∧ ExplicitTag.compare_tags ⟨b⟩ = true ∧
      read_len { r with pos := r.pos + 1 } =
        (.ok (len, ⟨r.pos + 1, lhi⟩), { r with pos := lhi }) ∧
      r.pos + 1 ≤ lhi ∧ lhi + len ≤ r.data.length ∧
      ExplicitTag.decodeF f ⟨b⟩ ⟨(r.data.drop lhi).take len, 0, r.offset + lhi, r.nextId⟩
        = some (.ok et, ir) ∧
      a = .mk ⟨(r.data.drop r.pos).take (lhi + len - r.pos), r.full_offset,
          ⟨r.pos + 1, lhi⟩, ⟨lhi, lhi + len⟩⟩ (.explicitTag et) ∧
      r' = { r with pos := lhi + len, nextId := ir.nextId } := by
  unfold ExplicitTag.decode_asn1F at h
  split at h
  · cases h
  · rename_i b r1 hct
    obtain ⟨hb, hp, hr1⟩ := check_tag_ok hct
    subst hr1
    split at h
    · cases h
    · rename_i len lr r2 hrl
      obtain ⟨hd2, ho2, hn2, hlr, hp2, hb2⟩ := read_len_ok hrl
      split at h
      · cases h
      · rename_i data dr r3 hrd
        obtain ⟨hb3, hdata, hdr, hr3⟩ := read_data_ok hrd
        simp only [Reader.new, Reader.set_next_id, Reader.set_offset] at h
        split at h
        · cases h
        · cases h
        · rename_i et ir hnest
          split at h
          · cases h
          · rename_i raw hdir
            obtain ⟨hab, hbl, hraw⟩ := Reader.data_in_range_ok hdir
            rw [Option.some.injEq, Prod.mk.injEq] at h
            obtain ⟨h1, h2⟩ := h
            cases h1
            subst h2
            refine ⟨b, len, r2.pos, et, ir, hb, hp, ?_, le_of_lt hp2, ?_, ?_, ?_, ?_⟩
            · have hr2e : ({ r with pos := r2.pos } : Reader) = r2 := by
                obtain ⟨d2, p2, o2, n2⟩ := r2
                simp only [Reader.mk.injEq]
                exact ⟨hd2.symm, trivial, ho2.symm, hn2.symm⟩
              rw [hr2e, ← hlr]
              exact hrl
            · rw [hd2] at hb3
              exact hb3
            · subst_vars
              dsimp only at hnest
              rw [hd2, ho2, hn2] at hnest
              exact hnest
            · subst_vars
              dsimp only
              rw [hd2]
              rfl
            · subst_vars
              dsimp only
              rw [hd2, ho2]

/-! ### Encoder lemmas -/

theorem except_bind_ok {α β : Type} {x : Except Error α} {f : α → Except Error β}
    {b : β} (h : (x >>= f) = .ok b) : ∃ a, x = .ok a ∧ f a = .ok b := by
  cases x with
  | error e => simp [bind, Except.bind] at h
  | ok a => exact ⟨a, rfl, by simpa [bind, Except.bind] using h⟩

theorem Writer.write_slice_append (w : Writer) (bs1 bs2 : List Nat) :
    w.write_slice (bs1 ++ bs2) = (w.write_slice bs1).bind fun w1 => w1.write_slice bs2 := by
  induction bs1 generalizing w with
  | nil => simp [Writer.write_slice, Except.bind]
  | cons b rest ih =>
    simp only [List.cons_append, Writer.write_slice, bind, Except.bind]
    cases hwb : w.write_byte b with
    | error e => rfl
    | ok w1 => exact ih w1

theorem except_bind_congr {α β : Type} (x : Except Error α)
    {f g : α → Except Error β} (h : ∀ a, f a = g a) :
    (x >>= f) = (x >>= g) := by
  cases x <;> simp [bind, Except.bind, h]

theorem OctetString.encode_eq (s : OctetString) (w : Writer) :
    s.encode w =
      w.write_slice (OctetString.TAG.v :: (write_len_bytes s.octets.length ++ s.octets)) := by
  rw [show w.write_slice (OctetString.TAG.v :: (write_len_bytes s.octets.length ++ s.octets))
    = (w.write_byte OctetString.TAG.v) >>=
        (fun w1 => w1.write_slice (write_len_bytes s.octets.length ++ s.octets)) from rfl]
  show (w.write_byte OctetString.TAG.v) >>=
    (fun w1 => write_len s.octets.length w1 >>= fun w2 => w2.write_slice s.octets) = _
  apply except_bind_congr
  intro w1
  rw [Writer.write_slice_append, ← write_len_eq]
  rfl

theorem Utf8String.encode_eq_utf8 (s : Utf8String) (w : Writer) :
    s.encode w =
      w.write_slice (Utf8String.TAG.v :: (write_len_bytes s.string.length ++ s.string)) := by
  rw [show w.write_slice (Utf8String.TAG.v :: (write_len_bytes s.string.length ++ s.string))
    = (w.write_byte Utf8String.TAG.v) >>=
        (fun w1 => w1.write_slice (write_len_bytes s.string.length ++ s.string)) from rfl]
  show (w.write_byte Utf8String.TAG.v) >>=
    (fun w1 => write_len s.string.length w1 >>= fun w2 => w2.write_slice s.string) = _
  apply except_bind_congr
  intro w1
  rw [Writer.write_slice_append, ← write_len_eq]
  rfl

theorem ExplicitTag.encode_eq_explicit (t : Nat) (inner : List Asn1) (w : Writer) :
    ExplicitTag.encode (.mk t inner) w =
      (w.write_slice (t :: write_len_bytes (sumNeeded inner))) >>=
        fun w2 => encodeList inner w2 := by
  rw [show (w.write_slice (t :: write_len_bytes (sumNeeded inner))) >>=
      (fun w2 => encodeList inner w2)
    = (w.write_byte t) >>= (fun w1 => (w1.write_slice (write_len_bytes (sumNeeded inner)))
        >>= fun w2 => encodeList inner w2) from by
      cases hwb : w.write_byte t <;> simp [bind, Except.bind, Writer.write_slice, hwb]]
  show (match w.write_byte t with
    | Except.error err => Except.error err
    | Except.ok w1 =>
      match write_len (sumNeeded inner) w1 with
      | Except.error err => Except.error err
      | Except.ok w2 => encodeList inner w2) = _
  cases hwb : w.write_byte t with
  | error e => simp [bind, Except.bind]
  | ok w1 =>
    simp only [bind, Except.bind, ← write_len_eq]
    cases write_len (sumNeeded inner) w1 <;> rfl

theorem OctetString.encode_pos_octet {s : OctetString} {w w' : Writer}
    (h : s.encode w = .ok w') :
    w'.pos = w.pos + OctetString.needed_buf_size s ∧ w'.buf.length = w.buf.length := by
  rw [OctetString.encode_eq] at h
  have hs := Writer.write_slice_ok h
  have hlen : (OctetString.TAG.v :: (write_len_bytes s.octets.length ++ s.octets)).length
      = OctetString.needed_buf_size s := by
    simp [write_len_bytes_length, OctetString.needed_buf_size]
    omega
  rw [hlen] at hs
  exact hs

theorem Utf8String.encode_pos_utf8 {s : Utf8String} {w w' : Writer}
    (h : s.encode w = .ok w') :
    w'.pos = w.pos + Utf8String.needed_buf_size s ∧ w'.buf.length = w.buf.length := by
  rw [Utf8String.encode_eq_utf8] at h
  have hs := Writer.write_slice_ok h
  have hlen : (Utf8String.TAG.v :: (write_len_bytes s.string.length ++ s.string)).length
      = Utf8String.needed_buf_size s := by
    simp [write_len_bytes_length, Utf8String.needed_buf_size]
    omega
  rw [hlen] at hs
  exact hs

mutual

theorem Asn1.encode_pos : ∀ (a : Asn1) (w w' : Writer), Asn1.encode a w = .ok w' →
    w'.pos = w.pos + Asn1.needed_buf_size a ∧ w'.buf.length = w.buf.length
  | .mk raw t, w, w', h => Asn1Type.encode_pos_type t w w' h

theorem Asn1Type.encode_pos_type : ∀ (t : Asn1Type) (w w' : Writer),
    Asn1Type.encode t w = .ok w' →
    w'.pos = w.pos + Asn1Type.needed_buf_size t ∧ w'.buf.length = w.buf.length
  | .octetString s, _, _, h => OctetString.encode_pos_octet h
  | .utf8String s, _, _, h => Utf8String.encode_pos_utf8 h
  | .explicitTag e, w, w', h => ExplicitTag.encode_pos_explicit e w w' h

theorem ExplicitTag.encode_pos_explicit : ∀ (e : ExplicitTag) (w w' : Writer),
    ExplicitTag.encode e w = .ok w' →
    w'.pos = w.pos + ExplicitTag.needed_buf_size e ∧ w'.buf.length = w.buf.length
  | .mk t inner, w, w', h => by
    rw [ExplicitTag.encode_eq_explicit] at h
    obtain ⟨w2, hw2, henc⟩ := except_bind_ok h
    have hs := Writer.write_slice_ok hw2
    have hrec := encodeList_pos inner w2 w' henc
    have hlen : (t :: write_len_bytes (sumNeeded inner)).length
        = 1 + len_size (sumNeeded inner) := by
      simp [write_len_bytes_length]
      omega
    rw [hlen] at hs
    refine ⟨?_, by omega⟩
    show w'.pos = w.pos + (1 + len_size (sumNeeded inner) + sumNeeded inner)
    omega

theorem encodeList_pos : ∀ (l : List Asn1) (w w' : Writer), encodeList l w = .ok w' →
    w'.pos = w.pos + sumNeeded l ∧ w'.buf.length = w.buf.length
  | [], w, w', h => by
    have : w = w' := by
      simpa [encodeList] using h
    subst this
    simp [sumNeeded]
  | a :: rest, w, w', h => by
    rw [show encodeList (a :: rest) w = (match Asn1.encode a w with
      | Except.error err => Except.error err
      | Except.ok w1 => encodeList rest w1) from rfl] at h
    revert h
    cases henc : Asn1.encode a w with
    | error e => intro h; cases h
    | ok w1 =>
      intro h
      have h1 := Asn1.encode_pos a w w1 henc
      have h2 := encodeList_pos rest w1 w' h
      show w'.pos = w.pos + (Asn1.needed_buf_size a + sumNeeded rest) ∧ _
      exact ⟨by omega, by omega⟩

end

/-- Helper: the recursive child sum agrees with `map`-and-`sum`. -/
theorem sumNeeded_eq_map_sum (l : List Asn1) :
    sumNeeded l = (l.map Asn1.needed_buf_size).sum := by
  induction l with
  | nil => rfl
  | cons a rest ih => simp [sumNeeded, ih]

/-- C2: a successful `encode(writer)` of any octet-string, UTF-8-string or
explicit-tag value advances the writer by exactly `needed_buf_size()`
bytes, and `needed_buf_size()` is one tag byte plus the length-field size
for the payload length plus the payload size, the payload size of an
explicit tag being the sum of its children's sizes. -/
theorem C2_encode_writes_needed :
    (∀ (s : OctetString) (w w' : Writer), s.encode w = .ok w' →
      w'.pos = w.pos + OctetString.needed_buf_size s) ∧
    (∀ (s : Utf8String) (w w' : Writer), s.encode w = .ok w' →
      w'.pos = w.pos + Utf8String.needed_buf_size s) ∧
    (∀ (e : ExplicitTag) (w w' : Writer), ExplicitTag.encode e w = .ok w' →
      w'.pos = w.pos + ExplicitTag.needed_buf_size e) ∧
    (∀ s : OctetString, OctetString.needed_buf_size s =
      1 + len_size s.octets.length + s.octets.length) ∧
    (∀ s : Utf8String, Utf8String.needed_buf_size s =
      1 + len_size s.string.length + s.string.length) ∧
    (∀ e : ExplicitTag, ExplicitTag.needed_buf_size e =
      1 + len_size ((e.inner.map Asn1.needed_buf_size).sum) +
        (e.inner.map Asn1.needed_buf_size).sum) := by
  refine ⟨fun s w w' h => (OctetString.encode_pos_octet h).1,
    fun s w w' h => (Utf8String.encode_pos_utf8 h).1,
    fun e w w' h => (ExplicitTag.encode_pos_explicit e w w' h).1,
    fun s => rfl, fun s => rfl, fun e => ?_⟩
  obtain ⟨t, inner⟩ := e
  show 1 + len_size (sumNeeded inner) + sumNeeded inner = _
  rw [sumNeeded_eq_map_sum]
  rfl

/-- Witness for C2: concrete encodes of each of the three types write
exactly their needed sizes. -/
theorem C2_encode_writes_needed_witness :
    ((⟨[4, 2, 1, 2], 4⟩ : Writer).pos =
      (Writer.new [0, 0, 0, 0]).pos + OctetString.needed_buf_size (.mk 0 [1, 2] none)) ∧
    ((⟨[12, 1, 65], 3⟩ : Writer).pos =
      (Writer.new [0, 0, 0]).pos + Utf8String.needed_buf_size ⟨0, [65]⟩) ∧
    ((⟨[0xA0, 0], 2⟩ : Writer).pos =
      (Writer.new [0, 0]).pos + ExplicitTag.needed_buf_size (.mk 0xA0 [])) :=
  ⟨C2_encode_writes_needed.1 (.mk 0 [1, 2] none) (Writer.new [0, 0, 0, 0])
      ⟨[4, 2, 1, 2], 4⟩ (by rfl),
    C2_encode_writes_needed.2.1 ⟨0, [65]⟩ (Writer.new [0, 0, 0]) ⟨[12, 1, 65], 3⟩ (by rfl),
    C2_encode_writes_needed.2.2.1 (.mk 0xA0 []) (Writer.new [0, 0]) ⟨[0xA0, 0], 2⟩ (by rfl)⟩

/-! ### Tag-byte claims (C8, C10) -/

set_option maxRecDepth 8000 in
theorem explicit_tag_byte_facts : ∀ t : Fin 256,
    ((t.val &&& 0x1F ||| 0xA0) &&& 0x1F) = t.val % 32 ∧
    ((t.val &&& 0x1F ||| 0xA0) &&& 0xA0) = 0xA0 ∧
    ((t.val &&& 0x1F ||| 0xA0) &&& 0xC0) = 0x80 ∧
    ((t.val &&& 0x1F ||| 0xA0) &&& 0x20) = 0x20 ∧
    (ExplicitTag.compare_tags ⟨t.val⟩ =
      (Tag.is_context_specific ⟨t.val⟩ && Tag.is_constructed ⟨t.val⟩)) ∧
    (ExplicitTag.compare_tags ⟨t.val⟩ = true ↔
      (t.val &&& 0xC0 = 0x80 ∧ t.val &&& 0x20 = 0x20)) := by
  decide

/-- C8: an explicit tag constructed from any caller-supplied tag number
stores the tag byte `(number & 0x1F) | 0xA0`, and `compare_tags` accepts
exactly the tags that are both context-specific and constructed, regardless
of the tag number. -/
theorem C8_explicit_tag_byte_and_match :
    (∀ (n : Nat) (v : List Asn1), ExplicitTag.new n v = .mk (n &&& 0x1F ||| 0xA0) v) ∧
    (∀ (t : Fin 256), ExplicitTag.compare_tags ⟨t.val⟩ =
      (Tag.is_context_specific ⟨t.val⟩ && Tag.is_constructed ⟨t.val⟩)) ∧
    (∀ (t : Fin 256), ExplicitTag.compare_tags ⟨t.val⟩ = true ↔
      (t.val &&& 0xC0 = 0x80 ∧ t.val &&& 0x20 = 0x20)) ∧
    (∀ (t : Fin 256) (v : List Asn1),
      ExplicitTag.compare_tags (ExplicitTag.tag (ExplicitTag.new t.val v)) = true) :=
  ⟨fun _ _ => rfl,
    fun t => (explicit_tag_byte_facts t).2.2.2.2.1,
    fun t => (explicit_tag_byte_facts t).2.2.2.2.2,
    fun t v => by
      have h := explicit_tag_byte_facts t
      show (Tag.is_context_specific ⟨t.val &&& 0x1F ||| 0xA0⟩ &&
        Tag.is_constructed ⟨t.val &&& 0x1F ||| 0xA0⟩) = true
      simp only [Tag.is_context_specific, Tag.is_constructed, h.2.2.1, h.2.2.2.1]
      rfl⟩

/-- C10: for every byte `t` and child list `v`, the tag number of
`ExplicitTag::new(t, v)` is `t mod 32` (tag numbers of 32 or more are
silently truncated, not rejected), and the stored tag byte always carries
the context-specific and constructed bits `0xA0`. -/
theorem C10_tag_number_truncated :
    ∀ (t : Fin 256) (v : List Asn1),
      ExplicitTag.tag_number (ExplicitTag.new t.val v) = t.val % 32 ∧
      (ExplicitTag.tagByte (ExplicitTag.new t.val v)) &&& 0xA0 = 0xA0 ∧
      (32 ≤ t.val → ExplicitTag.tag_number (ExplicitTag.new t.val v) ≠ t.val) := by
  intro t v
  have h := explicit_tag_byte_facts t
  refine ⟨h.1, h.2.1, fun h32 => ?_⟩
  rw [show ExplicitTag.tag_number (ExplicitTag.new t.val v)
    = ((t.val &&& 0x1F ||| 0xA0) &&& 0x1F) from rfl, h.1]
  have : t.val % 32 < 32 := Nat.mod_lt _ (by omega)
  omega

/-- Witness for C10 at a tag number of 32 or more. -/
theorem C10_tag_number_truncated_witness :
    ExplicitTag.tag_number (ExplicitTag.new 37 []) = 37 % 32 ∧
    (ExplicitTag.tagByte (ExplicitTag.new 37 [])) &&& 0xA0 = 0xA0 ∧
    ExplicitTag.tag_number (ExplicitTag.new 37 []) ≠ 37 :=
  ⟨(C10_tag_number_truncated ⟨37, by omega⟩ []).1,
    (C10_tag_number_truncated ⟨37, by omega⟩ []).2.1,
    (C10_tag_number_truncated ⟨37, by omega⟩ []).2.2 (by decide)⟩

/-! ### UTF-8 string decode (C9) -/

/-- C9: with the tag and length stages fixed, both UTF-8 decode entry
points succeed exactly when the payload bytes are well-formed UTF-8 —
storing exactly the payload bytes as the string view, with no
normalization — and fail with the content-validation error otherwise. -/
theorem C9_utf8_decode_content (r : Reader) (len lhi : Nat)
    (htag : r.data[r.pos]? = some 12)
    (hlen : read_len { r with pos := r.pos + 1 } =
      (.ok (len, ⟨r.pos + 1, lhi⟩), { r with pos := lhi }))
    (hp1 : r.pos + 1 ≤ lhi)
    (hbound : lhi + len ≤ r.data.length) :
    (utf8Valid ((r.data.drop lhi).take len) = true →
      Utf8String.decode r = (.ok ⟨r.nextId, (r.data.drop lhi).take len⟩,
          { r with pos := lhi + len, nextId := r.nextId + 1 }) ∧
      Utf8String.decode_asn1 r = (.ok (.mk
          ⟨(r.data.drop r.pos).take (lhi + len - r.pos), r.full_offset,
            ⟨r.pos + 1, lhi⟩, ⟨lhi, lhi + len⟩⟩
          (.utf8String ⟨r.nextId, (r.data.drop lhi).take len⟩)),
          { r with pos := lhi + len, nextId := r.nextId + 1 })) ∧
    (utf8Valid ((r.data.drop lhi).take len) = false →
      Utf8String.decode r = (.error .contentError,
          { r with pos := lhi + len, nextId := r.nextId + 1 }) ∧
      Utf8String.decode_asn1 r = (.error .contentError,
          { r with pos := lhi + len, nextId := r.nextId + 1 })) := by
  have hct : check_tag Utf8String.compare_tags r = (.ok 12, { r with pos := r.pos + 1 }) := by
    unfold check_tag Reader.read1
    rw [htag]
    rfl
  have hread : ({ r with pos := lhi } : Reader).read len =
      (.ok ((r.data.drop lhi).take len), { r with pos := lhi + len }) := by
    unfold Reader.read
    rw [if_pos (by simpa using hbound)]
  have hrdata : read_data ({ r with pos := lhi }) len =
      (.ok ((r.data.drop lhi).take len, ⟨lhi, lhi + len⟩), { r with pos := lhi + len }) := by
    unfold read_data
    rw [hread]
  have hdir : ({ r with pos := lhi + len } : Reader).data_in_range r.position (lhi + len) =
      .ok ((r.data.drop r.pos).take (lhi + len - r.pos)) := by
    unfold Reader.data_in_range
    rw [if_pos ⟨by show r.pos ≤ lhi + len; omega, by simpa using hbound⟩]
    rfl
  constructor
  · intro hv
    have hfu : from_utf8 ((r.data.drop lhi).take len) =
        .ok ((r.data.drop lhi).take len) := by
      unfold from_utf8
      rw [if_pos hv]
    constructor
    · simp only [Utf8String.decode, hct, hlen, hread, Reader.next_id, hfu]
    · simp only [Utf8String.decode_asn1, hct, hlen, hrdata, hdir, Reader.next_id, hfu]
  · intro hv
    have hv' : ¬ utf8Valid ((r.data.drop lhi).take len) = true := by simp [hv]
    have hfu : from_utf8 ((r.data.drop lhi).take len) = .error .contentError := by
      unfold from_utf8
      rw [if_neg hv']
    constructor
    · simp only [Utf8String.decode, hct, hlen, hread, Reader.next_id, hfu]
    · simp only [Utf8String.decode_asn1, hct, hlen, hrdata, hdir, Reader.next_id, hfu]

/-- Witness for C9: a one-byte ASCII payload decodes; a `0xFF` payload
fails with the content error. -/
theorem C9_utf8_decode_content_witness :
    (Utf8String.decode (Reader.new [12, 1, 65]) =
      (.ok ⟨0, [65]⟩, ⟨[12, 1, 65], 3, 0, 1⟩)) ∧
    (Utf8String.decode (Reader.new [12, 1, 255]) =
      (.error .contentError, ⟨[12, 1, 255], 3, 0, 1⟩)) :=
  ⟨((C9_utf8_decode_content (Reader.new [12, 1, 65]) 1 2 (by rfl) (by rfl)
      (by decide) (by decide)).1 (by decide)).1,
    ((C9_utf8_decode_content (Reader.new [12, 1, 255]) 1 2 (by rfl) (by rfl)
      (by decide) (by decide)).2 (by decide)).1⟩

/-! ### Forward evaluation of the octet-string decoders (C5, C6) -/

theorem OctetString.decode_asn1F_eval (f : Nat) (r : Reader) (len lhi : Nat)
    (res : Except Error Asn1) (ir : Reader)
    (htag : r.data[r.pos]? = some 4)
    (hlen : read_len { r with pos := r.pos + 1 } =
      (.ok (len, ⟨r.pos + 1, lhi⟩), { r with pos := lhi }))
    (hp1 : r.pos + 1 ≤ lhi)
    (hbound : lhi + len ≤ r.data.length)
    (hnest : Asn1.decode f
      ⟨(r.data.drop lhi).take len, 0, r.offset + (lhi + len), r.nextId⟩ = some (res, ir)) :
    OctetString.decode_asn1F (f + 1) r = some (.ok (.mk
      ⟨(r.data.drop r.pos).take (lhi + len - r.pos), r.full_offset,
        ⟨r.pos + 1, lhi⟩, ⟨lhi, lhi + len⟩⟩
      (.octetString (.mk ir.nextId ((r.data.drop lhi).take len) res.toOption))),
      { r with pos := lhi + len, nextId := ir.nextId + 1 }) := by
  have hct : check_tag OctetString.compare_tags r =
      (.ok 4, { r with pos := r.pos + 1 }) := by
    unfold check_tag Reader.read1
    rw [htag]
    rfl
  have hread : ({ r with pos := lhi } : Reader).read len =
      (.ok ((r.data.drop lhi).take len), { r with pos := lhi + len }) := by
    unfold Reader.read
    rw [if_pos (by simpa using hbound)]
  have hrdata : read_data ({ r with pos := lhi }) len =
      (.ok ((r.data.drop lhi).take len, ⟨lhi, lhi + len⟩), { r with pos := lhi + len }) := by
    unfold read_data
    rw [hread]
  have hdir : ∀ nid, (⟨r.data, lhi + len, r.offset, nid⟩ : Reader).data_in_range
      r.position (lhi + len) = .ok ((r.data.drop r.pos).take (lhi + len - r.pos)) := by
    intro nid
    unfold Reader.data_in_range
    rw [if_pos ⟨by show r.pos ≤ lhi + len; omega, by simpa using hbound⟩]
    rfl
  simp only [OctetString.decode_asn1F, hct, hlen, hrdata, Reader.next_id, Reader.new,
    Reader.set_next_id, Reader.set_offset, Reader.full_offset]
  rw [show (Asn1.decode f
      ⟨(r.data.drop lhi).take len, 0, r.offset + (lhi + len), r.nextId⟩ : DecResult Asn1)
    = some (res, ir) from hnest]
  simp only [Reader.next_id]
  rw [show (⟨r.data, lhi + len, r.offset, ir.nextId⟩ : Reader).data_in_range
    r.position (lhi + len) = .ok ((r.data.drop r.pos).take (lhi + len - r.pos))
    from hdir ir.nextId]

theorem OctetString.decodeF_eval (f : Nat) (r : Reader) (len lhi : Nat)
    (res : Except Error Asn1) (ir : Reader)
    (htag : r.data[r.pos]? = some 4)
    (hlen : read_len { r with pos := r.pos + 1 } =
      (.ok (len, ⟨r.pos + 1, lhi⟩), { r with pos := lhi }))
    (hp1 : r.pos + 1 ≤ lhi)
    (hbound : lhi + len ≤ r.data.length)
    (hnest : Asn1.decode f
      ⟨(r.data.drop lhi).take len, 0, 0, r.nextId⟩ = some (res, ir)) :
    OctetString.decodeF (f + 1) r = some (.ok
      (.mk ir.nextId ((r.data.drop lhi).take len) res.toOption),
      { r with pos := lhi + len, nextId := ir.nextId + 1 }) := by
  have hct : check_tag OctetString.compare_tags r =
      (.ok 4, { r with pos := r.pos + 1 }) := by
    unfold check_tag Reader.read1
    rw [htag]
    rfl
  have hread : ({ r with pos := lhi } : Reader).read len =
      (.ok ((r.data.drop lhi).take len), { r with pos := lhi + len }) := by
    unfold Reader.read
    rw [if_pos (by simpa using hbound)]
  simp only [OctetString.decodeF, hct, hlen, hread, Reader.next_id, Reader.new,
    Reader.set_next_id]
  rw [show (Asn1.decode f
      ⟨(r.data.drop lhi).take len, 0, 0, r.nextId⟩ : DecResult Asn1)
    = some (res, ir) from hnest]

/-- Union-dispatch step at a UTF-8 tag: with a fresh fuel layer, the
dispatcher hands the reader to the UTF-8-string tree decoder. -/
theorem Asn1.decode_utf8_step (f : Nat) (r : Reader)
    (h : r.data[r.pos]? = some 12) :
    Asn1.decode (f + 1) r = some (Utf8String.decode_asn1 r) := by
  have hpeek : r.peek = .ok 12 := by
    unfold Reader.peek
    rw [h]
  simp only [Asn1.decode, hpeek]
  rw [if_neg (by decide), if_pos (by decide)]

/-- C5: with the octet string's tag, length and payload stages fixed, the
speculative nested decode is best-effort: a nested failure of any kind is
discarded and the octet string still decodes successfully with `inner()`
empty; a nested success is exposed through `inner()`; and in particular a
payload that is itself a valid encoded UTF-8 string decodes successfully
with that nested value exposed. -/
theorem C5_octet_nested_best_effort (r : Reader) (len lhi : Nat)
    (htag : r.data[r.pos]? = some 4)
    (hlen : read_len { r with pos := r.pos + 1 } =
      (.ok (len, ⟨r.pos + 1, lhi⟩), { r with pos := lhi }))
    (hp1 : r.pos + 1 ≤ lhi)
    (hbound : lhi + len ≤ r.data.length) :
    (∀ f e ir, Asn1.decode f
        ⟨(r.data.drop lhi).take len, 0, r.offset + (lhi + len), r.nextId⟩
        = some (.error e, ir) →
      OctetString.decode_asn1F (f + 1) r = some (.ok (.mk
        ⟨(r.data.drop r.pos).take (lhi + len - r.pos), r.full_offset,
          ⟨r.pos + 1, lhi⟩, ⟨lhi, lhi + len⟩⟩
        (.octetString (.mk ir.nextId ((r.data.drop lhi).take len) none))),
        { r with pos := lhi + len, nextId := ir.nextId + 1 })) ∧
    (∀ f a ir, Asn1.decode f
        ⟨(r.data.drop lhi).take len, 0, r.offset + (lhi + len), r.nextId⟩
        = some (.ok a, ir) →
      OctetString.decode_asn1F (f + 1) r = some (.ok (.mk
        ⟨(r.data.drop r.pos).take (lhi + len - r.pos), r.full_offset,
          ⟨r.pos + 1, lhi⟩, ⟨lhi, lhi + len⟩⟩
        (.octetString (.mk ir.nextId ((r.data.drop lhi).take len) (some a)))),
        { r with pos := lhi + len, nextId := ir.nextId + 1 })) ∧
    (∀ g (s : List Nat), (r.data.drop lhi).take len = 12 :: s.length :: s →
      s.length < 128 → utf8Valid s = true →
      OctetString.decode_asn1F (g + 2) r = some (.ok (.mk
        ⟨(r.data.drop r.pos).take (lhi + len - r.pos), r.full_offset,
          ⟨r.pos + 1, lhi⟩, ⟨lhi, lhi + len⟩⟩
        (.octetString (.mk (r.nextId + 1) (12 :: s.length :: s)
          (some (.mk ⟨12 :: s.length :: s, r.offset + (lhi + len), ⟨1, 2⟩,
              ⟨2, 2 + s.length⟩⟩
            (.utf8String ⟨r.nextId, s⟩)))))),
        { r with pos := lhi + len, nextId := r.nextId + 2 })) := by
  refine ⟨?_, ?_, ?_⟩
  · intro f e ir hnest
    exact OctetString.decode_asn1F_eval f r len lhi (.error e) ir htag hlen hp1 hbound hnest
  · intro f a ir hnest
    exact OctetString.decode_asn1F_eval f r len lhi (.ok a) ir htag hlen hp1 hbound hnest
  · intro g s hpl hslen hsval
    -- evaluate the nested UTF-8 decode on the inner reader
    have hImem : (⟨12 :: s.length :: s, 0, r.offset + (lhi + len), r.nextId⟩ :
        Reader).data[0]? = some 12 := rfl
    have hIlen : read_len { (⟨12 :: s.length :: s, 0, r.offset + (lhi + len), r.nextId⟩ :
        Reader) with pos := 0 + 1 } =
        (.ok (s.length, ⟨0 + 1, 2⟩),
          { (⟨12 :: s.length :: s, 0, r.offset + (lhi + len), r.nextId⟩ :
            Reader) with pos := 2 }) := by
      unfold read_len Reader.read1
      simp [hslen]
    have hdrop2 : ((12 :: s.length :: s : List Nat).drop 2).take s.length = s := by
      simp
    have hutf8 := (C9_utf8_decode_content
      (⟨12 :: s.length :: s, 0, r.offset + (lhi + len), r.nextId⟩ : Reader)
      s.length 2 hImem hIlen (by simp) (by simp; omega)).1 (by rw [hdrop2]; exact hsval)
    have hstep := Asn1.decode_utf8_step g
      (⟨12 :: s.length :: s, 0, r.offset + (lhi + len), r.nextId⟩ : Reader) hImem
    rw [hutf8.2] at hstep
    have hnest : Asn1.decode (g + 1)
        ⟨(r.data.drop lhi).take len, 0, r.offset + (lhi + len), r.nextId⟩
        = some (.ok (.mk ⟨((12 :: s.length :: s : List Nat).drop 0).take (2 + s.length - 0),
            r.offset + (lhi + len) + 0, ⟨0 + 1, 2⟩, ⟨2, 2 + s.length⟩⟩
          (.utf8String ⟨r.nextId, ((12 :: s.length :: s : List Nat).drop 2).take s.length⟩)),
          ⟨12 :: s.length :: s, 2 + s.length, r.offset + (lhi + len), r.nextId + 1⟩) := by
      rw [hpl]
      exact hstep
    have := OctetString.decode_asn1F_eval (g + 1) r len lhi _ _ htag hlen hp1 hbound hnest
    rw [this]
    rw [hpl, hdrop2]
    rw [show ((12 :: s.length :: s : List Nat).drop 0).take (2 + s.length - 0)
      = 12 :: s.length :: s from by
        rw [List.drop_zero, show (2 + s.length - 0) = (12 :: s.length :: s : List Nat).length
          from by simp; omega, List.take_length]]
    rfl

/-- Witness for C5: a non-TLV payload (first byte 0) decodes with no
nested structure, and a payload that is a valid UTF-8 TLV decodes with the
nested value exposed. -/
theorem C5_octet_nested_best_effort_witness :
    (OctetString.decode_asn1F 10 (Reader.new [4, 1, 0]) = some (.ok (.mk
      ⟨[4, 1, 0], 0, ⟨1, 2⟩, ⟨2, 3⟩⟩
      (.octetString (.mk 0 [0] none))), ⟨[4, 1, 0], 3, 0, 1⟩)) ∧
    (OctetString.decode_asn1F 10 (Reader.new [4, 3, 12, 1, 65]) = some (.ok (.mk
      ⟨[4, 3, 12, 1, 65], 0, ⟨1, 2⟩, ⟨2, 5⟩⟩
      (.octetString (.mk 1 [12, 1, 65]
        (some (.mk ⟨[12, 1, 65], 5, ⟨1, 2⟩, ⟨2, 3⟩⟩ (.utf8String ⟨0, [65]⟩)))))),
      ⟨[4, 3, 12, 1, 65], 5, 0, 2⟩)) :=
  ⟨(C5_octet_nested_best_effort (Reader.new [4, 1, 0]) 1 2 (by rfl) (by rfl)
      (by decide) (by decide)).1 9 .unknownTag ⟨[0], 0, 3, 0⟩ (by rfl),
    (C5_octet_nested_best_effort (Reader.new [4, 3, 12, 1, 65]) 3 2 (by rfl) (by rfl)
      (by decide) (by decide)).2.2 8 [65] (by rfl) (by decide) (by decide)⟩

/-- Counterexample to C6 as stated: decoding the octet string
`[4,3,12,1,65]` (payload: a UTF-8 TLV) from a parent reader whose global
offset is 5, the value-only entry point `decode` stamps the nested UTF-8
node with tag position 0 — its fresh reader kept `Reader::new`'s default
offset 0 — although the parent reader's global offset at the time of the
nested decode was 10; the tree entry point `decode_asn1` stamps 10, showing
what offset inheritance would have produced.  So `decode` does not inherit
the parent's global offset. -/
theorem C6_counterexample :
    OctetString.decodeF 10 (⟨[4, 3, 12, 1, 65], 0, 5, 0⟩ : Reader) = some (.ok
      (.mk 1 [12, 1, 65] (some (.mk ⟨[12, 1, 65], 0, ⟨1, 2⟩, ⟨2, 3⟩⟩
        (.utf8String ⟨0, [65]⟩)))), ⟨[4, 3, 12, 1, 65], 5, 5, 2⟩) ∧
    OctetString.decode_asn1F 10 (⟨[4, 3, 12, 1, 65], 0, 5, 0⟩ : Reader) = some (.ok
      (.mk ⟨[4, 3, 12, 1, 65], 5, ⟨1, 2⟩, ⟨2, 5⟩⟩ (.octetString (.mk 1 [12, 1, 65]
        (some (.mk ⟨[12, 1, 65], 10, ⟨1, 2⟩, ⟨2, 3⟩⟩ (.utf8String ⟨0, [65]⟩)))))),
      ⟨[4, 3, 12, 1, 65], 5, 5, 2⟩) ∧
    (⟨[4, 3, 12, 1, 65], 5, 5, 0⟩ : Reader).full_offset = 10 ∧
    (0 : Nat) ≠ 10 :=
  ⟨by rfl, by rfl, by rfl, by decide⟩

/-- C6 (amended): in both octet-string decode entry points the fresh
payload reader inherits the parent reader's current node-id counter and
feeds its final counter value back into the parent (which resumes with
`ir.nextId`, stamping the octet node with it); the tree entry point
`decode_asn1` additionally gives the fresh reader the parent's current
global offset, while the value-only entry point `decode` leaves the fresh
reader at `Reader::new`'s default offset 0. -/
theorem C6_amended_reader_threading (r : Reader) (len lhi : Nat)
    (htag : r.data[r.pos]? = some 4)
    (hlen : read_len { r with pos := r.pos + 1 } =
      (.ok (len, ⟨r.pos + 1, lhi⟩), { r with pos := lhi }))
    (hp1 : r.pos + 1 ≤ lhi)
    (hbound : lhi + len ≤ r.data.length) :
    (∀ f res ir, Asn1.decode f
        ⟨(r.data.drop lhi).take len, 0, r.offset + (lhi + len), r.nextId⟩
        = some (res, ir) →
      OctetString.decode_asn1F (f + 1) r = some (.ok (.mk
        ⟨(r.data.drop r.pos).take (lhi + len - r.pos), r.full_offset,
          ⟨r.pos + 1, lhi⟩, ⟨lhi, lhi + len⟩⟩
        (.octetString (.mk ir.nextId ((r.data.drop lhi).take len) res.toOption))),
        { r with pos := lhi + len, nextId := ir.nextId + 1 })) ∧
    (∀ f res ir, Asn1.decode f
        ⟨(r.data.drop lhi).take len, 0, 0, r.nextId⟩ = some (res, ir) →
      OctetString.decodeF (f + 1) r = some (.ok
        (.mk ir.nextId ((r.data.drop lhi).take len) res.toOption),
        { r with pos := lhi + len, nextId := ir.nextId + 1 })) :=
  ⟨fun f res ir hnest =>
      OctetString.decode_asn1F_eval f r len lhi res ir htag hlen hp1 hbound hnest,
    fun f res ir hnest =>
      OctetString.decodeF_eval f r len lhi res ir htag hlen hp1 hbound hnest⟩

/-- Witness for the amended C6 at a concrete nested decode. -/
theorem C6_amended_reader_threading_witness :
    OctetString.decode_asn1F 10 (Reader.new [4, 3, 12, 1, 65]) = some (.ok (.mk
      ⟨[4, 3, 12, 1, 65], 0, ⟨1, 2⟩, ⟨2, 5⟩⟩ (.octetString (.mk 1 [12, 1, 65]
        (some (.mk ⟨[12, 1, 65], 5, ⟨1, 2⟩, ⟨2, 3⟩⟩ (.utf8String ⟨0, [65]⟩)))))),
      ⟨[4, 3, 12, 1, 65], 5, 0, 2⟩) :=
  (C6_amended_reader_threading (Reader.new [4, 3, 12, 1, 65]) 3 2 (by rfl) (by rfl)
    (by decide) (by decide)).1 9
    (.ok (.mk ⟨[12, 1, 65], 5, ⟨1, 2⟩, ⟨2, 3⟩⟩ (.utf8String ⟨0, [65]⟩)))
    ⟨[12, 1, 65], 3, 5, 1⟩ (by rfl)

/-! ### Fuel monotonicity: a fueled result, once defined, is stable -/

theorem decode_mono_step : ∀ f,
    (∀ r x, Asn1.decode f r = some x → Asn1.decode (f + 1) r = some x) ∧
    (∀ r x, OctetString.decode_asn1F f r = some x →
      OctetString.decode_asn1F (f + 1) r = some x) ∧
    (∀ r x, OctetString.decodeF f r = some x → OctetString.decodeF (f + 1) r = some x) ∧
    (∀ t r x, ExplicitTag.decodeF f t r = some x →
      ExplicitTag.decodeF (f + 1) t r = some x) ∧
    (∀ r x, ExplicitTag.decode_asn1F f r = some x →
      ExplicitTag.decode_asn1F (f + 1) r = some x) := by
  intro f
  induction f with
  | zero =>
    refine ⟨?_, ?_, ?_, ?_, ?_⟩ <;> (intros; rename_i h; cases h)
  | succ f ih =>
    obtain ⟨ihA, ihO, ihV, ihL, ihE⟩ := ih
    refine ⟨?_, ?_, ?_, ?_, ?_⟩
    · -- union dispatcher
      intro r x h
      simp only [Asn1.decode] at h ⊢
      cases hp : r.peek with
      | error e => simp only [hp] at h ⊢; exact h
      | ok b =>
        simp only [hp] at h ⊢
        by_cases h4 : OctetString.compare_tags ⟨b⟩ = true
        · simp only [if_pos h4] at h ⊢
          exact ihO r x h
        · simp only [if_neg h4] at h ⊢
          by_cases h12 : Utf8String.compare_tags ⟨b⟩ = true
          · simp only [if_pos h12] at h ⊢
            exact h
          · simp only [if_neg h12] at h ⊢
            by_cases hex : ExplicitTag.compare_tags ⟨b⟩ = true
            · simp only [if_pos hex] at h ⊢
              exact ihE r x h
            · simp only [if_neg hex] at h ⊢
              exact h
    · -- octet-string tree decode
      intro r x h
      simp only [OctetString.decode_asn1F, Reader.next_id, Reader.new,
        Reader.set_next_id, Reader.set_offset, Reader.full_offset] at h ⊢
      cases hct : check_tag OctetString.compare_tags r with
      | mk res1 r1 =>
        cases res1 with
        | error e => simp only [hct] at h ⊢; exact h
        | ok b =>
          simp only [hct] at h ⊢
          cases hrl : read_len r1 with
          | mk res2 r2 =>
            cases res2 with
            | error e => simp only [hrl] at h ⊢; exact h
            | ok lp =>
              obtain ⟨len, lr⟩ := lp
              simp only [hrl] at h ⊢
              cases hrd : read_data r2 len with
              | mk res3 r3 =>
                cases res3 with
                | error e => simp only [hrd] at h ⊢; exact h
                | ok dp =>
                  obtain ⟨data, dr⟩ := dp
                  simp only [hrd] at h ⊢
                  cases hnest : Asn1.decode f
                      ⟨data, 0, r3.offset + r3.pos, r3.nextId⟩ with
                  | none => rw [hnest] at h; cases h
                  | some y =>
                    rw [hnest] at h
                    rw [ihA _ y hnest]
                    exact h
    · -- octet-string value decode
      intro r x h
      simp only [OctetString.decodeF, Reader.next_id, Reader.new,
        Reader.set_next_id] at h ⊢
      cases hct : check_tag OctetString.compare_tags r with
      | mk res1 r1 =>
        cases res1 with
        | error e => simp only [hct] at h ⊢; exact h
        | ok b =>
          simp only [hct] at h ⊢
          cases hrl : read_len r1 with
          | mk res2 r2 =>
            cases res2 with
            | error e => simp only [hrl] at h ⊢; exact h
            | ok lp =>
              obtain ⟨len, lr⟩ := lp
              simp only [hrl] at h ⊢
              cases hrd : r2.read len with
              | mk res3 r3 =>
                cases res3 with
                | error e => simp only [hrd] at h ⊢; exact h
                | ok data =>
                  simp only [hrd] at h ⊢
                  cases hnest : Asn1.decode f ⟨data, 0, 0, r3.nextId⟩ with
                  | none => rw [hnest] at h; cases h
                  | some y =>
                    rw [hnest] at h
                    rw [ihA _ y hnest]
                    exact h
    · -- explicit-tag child loop
      intro t r x h
      rw [ExplicitTag.decodeF] at h
      rw [ExplicitTag.decodeF]
      by_cases he : r.empty = true
      · simp only [if_pos he] at h ⊢
        exact h
      · simp only [if_neg he] at h ⊢
        cases hc : Asn1.decode f r with
        | none =>
          simp only [hc] at h
          cases h
        | some y =>
          obtain ⟨cres, r1⟩ := y
          simp only [hc, ihA _ _ hc] at h ⊢
          cases cres with
          | error e => exact h
          | ok a =>
            cases hrest : ExplicitTag.decodeF f t r1 with
            | none =>
              simp only [hrest] at h
              cases h
            | some z =>
              simp only [hrest, ihL t _ z hrest] at h ⊢
              exact h
    · -- explicit-tag tree driver
      intro r x h
      simp only [ExplicitTag.decode_asn1F, Reader.new, Reader.set_next_id,
        Reader.set_offset] at h ⊢
      cases hct : check_tag ExplicitTag.compare_tags r with
      | mk res1 r1 =>
        cases res1 with
        | error e => simp only [hct] at h ⊢; exact h
        | ok b =>
          simp only [hct] at h ⊢
          cases hrl : read_len r1 with
          | mk res2 r2 =>
            cases res2 with
            | error e => simp only [hrl] at h ⊢; exact h
            | ok lp =>
              obtain ⟨len, lr⟩ := lp
              simp only [hrl] at h ⊢
              cases hrd : read_data r2 len with
              | mk res3 r3 =>
                cases res3 with
                | error e => simp only [hrd] at h ⊢; exact h
                | ok dp =>
                  obtain ⟨data, dr⟩ := dp
                  simp only [hrd] at h ⊢
                  cases hloop : ExplicitTag.decodeF f ⟨b⟩
                      ⟨data, 0, r3.offset + dr.lo, r3.nextId⟩ with
                  | none => rw [hloop] at h; cases h
                  | some y =>
                    rw [hloop] at h
                    rw [ihL _ _ y hloop]
                    exact h

/-- Fueled decodes are stable under extra fuel. -/
theorem Asn1.decode_mono {f g : Nat} (hfg : f ≤ g) {r : Reader}
    {x : Except Error Asn1 × Reader} (h : Asn1.decode f r = some x) :
    Asn1.decode g r = some x := by
  induction g with
  | zero =>
    have : f = 0 := by omega
    subst this
    exact h
  | succ g ihg =>
    by_cases hf : f = g + 1
    · subst hf; exact h
    · exact (decode_mono_step g).1 r x (ihg (by omega))

/-- Fueled explicit-tag child loops are stable under extra fuel. -/
theorem ExplicitTag.decodeF_mono {f g : Nat} (hfg : f ≤ g) {t : Tag} {r : Reader}
    {x : Except Error ExplicitTag × Reader} (h : ExplicitTag.decodeF f t r = some x) :
    ExplicitTag.decodeF g t r = some x := by
  induction g with
  | zero =>
    have : f = 0 := by omega
    subst this
    exact h
  | succ g ihg =>
    by_cases hf : f = g + 1
    · subst hf; exact h
    · exact (decode_mono_step g).2.2.2.1 t r x (ihg (by omega))

/-- C7: the explicit-tag decode repeatedly decodes child tree nodes from
the payload reader until it is exhausted: an empty payload yields zero
children; a first-child failure propagates unchanged; every success stores
the given tag byte and a sequential child-decode chain that exhausts the
reader; and conversely whenever every child decodes (a chain exists), the
explicit-tag decode succeeds with exactly those children. -/
theorem C7_explicit_children_loop :
    (∀ (f : Nat) (t : Tag) (r : Reader), r.empty = true →
      ExplicitTag.decodeF (f + 1) t r = some (.ok (.mk t.v []), r)) ∧
    (∀ (f : Nat) (t : Tag) (r : Reader) (e : Error) (r1 : Reader), r.empty = false →
      Asn1.decode f r = some (.error e, r1) →
      ExplicitTag.decodeF (f + 1) t r = some (.error e, r1)) ∧
    (∀ (f : Nat) (t : Tag) (r : Reader) (et : ExplicitTag) (r' : Reader),
      ExplicitTag.decodeF f t r = some (.ok et, r') →
      et.tagByte = t.v ∧ DecodeSeq r et.inner r' ∧ r'.empty = true) ∧
    (∀ (t : Tag) (r : Reader) (as : List Asn1) (r' : Reader), DecodeSeq r as r' →
      ∃ f, ExplicitTag.decodeF f t r = some (.ok (.mk t.v as), r')) := by
  refine ⟨?_, ?_, ?_, ?_⟩
  · intro f t r he
    rw [ExplicitTag.decodeF, if_pos he]
  · intro f t r e r1 hne hc
    rw [ExplicitTag.decodeF, if_neg (by simp [hne])]
    simp only [hc]
  · intro f
    induction f with
    | zero => intro t r et r' h; cases h
    | succ f ih =>
      intro t r et r' h
      rw [ExplicitTag.decodeF] at h
      by_cases he : r.empty = true
      · rw [if_pos he, Option.some.injEq, Prod.mk.injEq] at h
        obtain ⟨h1, h2⟩ := h
        cases h1
        subst h2
        exact ⟨rfl, DecodeSeq.nil he, he⟩
      · rw [if_neg he] at h
        cases hc : Asn1.decode f r with
        | none =>
          simp only [hc] at h
          cases h
        | some y =>
          obtain ⟨cres, r1⟩ := y
          simp only [hc] at h
          cases cres with
          | error e =>
            rw [Option.some.injEq, Prod.mk.injEq] at h
            exact Except.noConfusion h.1
          | ok a =>
            cases hrest : ExplicitTag.decodeF f t r1 with
            | none =>
              simp only [hrest] at h
              cases h
            | some z =>
              obtain ⟨zres, r''⟩ := z
              simp only [hrest] at h
              cases zres with
              | error e =>
                rw [Option.some.injEq, Prod.mk.injEq] at h
                exact Except.noConfusion h.1
              | ok et' =>
                rw [Option.some.injEq, Prod.mk.injEq] at h
                obtain ⟨h1, h2⟩ := h
                cases h1
                subst h2
                obtain ⟨htb, hseq, hemp⟩ := ih t r1 et' r'' hrest
                refine ⟨htb, ?_, hemp⟩
                exact DecodeSeq.cons (by simpa using he) hc hseq
  · intro t r as r' hseq
    induction hseq with
    | nil h => exact ⟨1, by rw [ExplicitTag.decodeF, if_pos h]⟩
    | @cons r0 r1 r'0 a as0 g hne hd ht ihd =>
      obtain ⟨f2, hf2⟩ := ihd
      refine ⟨max g f2 + 1, ?_⟩
      rw [ExplicitTag.decodeF, if_neg (by simp [hne])]
      have hc' : Asn1.decode (max g f2) r0 = some (.ok a, r1) :=
        Asn1.decode_mono (le_max_left g f2) hd
      have hr' : ExplicitTag.decodeF (max g f2) t r1 = some (.ok (.mk t.v as0), r'0) :=
        ExplicitTag.decodeF_mono (le_max_right g f2) hf2
      simp only [hc', hr']
      rfl

/-- Witness for C7: an empty payload gives zero children; a payload holding
one UTF-8 TLV gives one child, the chain exhausting the reader. -/
theorem C7_explicit_children_loop_witness :
    (ExplicitTag.decodeF 1 ⟨0xA3⟩ (Reader.new []) =
      some (.ok (.mk 0xA3 []), Reader.new [])) ∧
    ((ExplicitTag.mk 0xA3 [.mk ⟨[12, 1, 65], 0, ⟨1, 2⟩, ⟨2, 3⟩⟩
        (.utf8String ⟨0, [65]⟩)]).tagByte = (⟨0xA3⟩ : Tag).v ∧
      DecodeSeq (Reader.new [12, 1, 65])
        (ExplicitTag.mk 0xA3 [.mk ⟨[12, 1, 65], 0, ⟨1, 2⟩, ⟨2, 3⟩⟩
          (.utf8String ⟨0, [65]⟩)]).inner ⟨[12, 1, 65], 3, 0, 1⟩ ∧
      (⟨[12, 1, 65], 3, 0, 1⟩ : Reader).empty = true) :=
  ⟨C7_explicit_children_loop.1 0 ⟨0xA3⟩ (Reader.new []) (by decide),
    C7_explicit_children_loop.2.2.1 5 ⟨0xA3⟩ (Reader.new [12, 1, 65])
      (.mk 0xA3 [.mk ⟨[12, 1, 65], 0, ⟨1, 2⟩, ⟨2, 3⟩⟩ (.utf8String ⟨0, [65]⟩)])
      ⟨[12, 1, 65], 3, 0, 1⟩ (by rfl)⟩

/-! ### Frame lemmas: stage functions never touch data, offset or counter -/

theorem Reader.read_frame {r : Reader} {n : Nat} {res : Except Error (List Nat)}
    {r' : Reader} (h : r.read n = (res, r')) :
    r'.data = r.data ∧ r'.offset = r.offset ∧ r'.nextId = r.nextId := by
  unfold Reader.read at h
  split at h <;> (cases h; exact ⟨rfl, rfl, rfl⟩)

theorem Reader.read1_frame {r : Reader} {res : Except Error Nat} {r' : Reader}
    (h : r.read1 = (res, r')) :
    r'.data = r.data ∧ r'.offset = r.offset ∧ r'.nextId = r.nextId := by
  unfold Reader.read1 at h
  split at h <;> (cases h; exact ⟨rfl, rfl, rfl⟩)

theorem check_tag_frame {p : Tag → Bool} {r : Reader} {res : Except Error Nat}
    {r' : Reader} (h : check_tag p r = (res, r')) :
    r'.data = r.data ∧ r'.offset = r.offset ∧ r'.nextId = r.nextId := by
  unfold check_tag at h
  split at h
  · rename_i e r1 hr1
    cases h
    exact Reader.read1_frame hr1
  · rename_i b r1 hr1
    split at h <;> (cases h; exact Reader.read1_frame hr1)

theorem read_len_frame {r : Reader} {res : Except Error (Nat × ARange)} {r' : Reader}
    (h : read_len r = (res, r')) :
    r'.data = r.data ∧ r'.offset = r.offset ∧ r'.nextId = r.nextId := by
  unfold read_len at h
  split at h
  · rename_i e r1 hr1
    cases h
    exact Reader.read1_frame hr1
  · rename_i b r1 hr1
    have h1 := Reader.read1_frame hr1
    split at h
    · cases h; exact h1
    · split at h
      · cases h; exact h1
      · split at h
        · cases h; exact h1
        · split at h <;> rename_i bytes r2 hr2 <;> cases h <;>
            (obtain ⟨a2, b2, c2⟩ := Reader.read_frame hr2; exact ⟨a2.trans h1.1,
              b2.trans h1.2.1, c2.trans h1.2.2⟩)

theorem read_data_frame {r : Reader} {len : Nat}
    {res : Except Error (List Nat × ARange)} {r' : Reader}
    (h : read_data r len = (res, r')) :
    r'.data = r.data ∧ r'.offset = r.offset ∧ r'.nextId = r.nextId := by
  unfold read_data at h
  split at h <;> rename_i hr1 <;> cases h <;> exact Reader.read_frame hr1

/-- Ids of a UTF-8 tree decode: the counter never decreases, and a success
is stamped with exactly the incoming counter value, the counter advancing
by one. -/
theorem utf8_decode_asn1_ids {r : Reader} {res : Except Error Asn1} {r' : Reader}
    (h : Utf8String.decode_asn1 r = (res, r')) :
    r.nextId ≤ r'.nextId ∧
      ∀ a, res = .ok a → Asn1.idsPost a = [r.nextId] ∧ r'.nextId = r.nextId + 1 := by
  unfold Utf8String.decode_asn1 at h
  split at h
  · rename_i e r1 hr1
    cases h
    have := check_tag_frame hr1
    exact ⟨by omega, fun a ha => by cases ha⟩
  · rename_i b r1 hr1
    have h1 := check_tag_frame hr1
    split at h
    · rename_i e r2 hr2
      cases h
      have h2 := read_len_frame hr2
      exact ⟨by omega, fun a ha => by cases ha⟩
    · rename_i len lr r2 hr2
      have h2 := read_len_frame hr2
      split at h
      · rename_i e r3 hr3
        cases h
        have h3 := read_data_frame hr3
        exact ⟨by omega, fun a ha => by cases ha⟩
      · rename_i data dr r3 hr3
        have h3 := read_data_frame hr3
        split at h
        · cases h
          exact ⟨by omega, fun a ha => by cases ha⟩
        · rename_i raw hraw
          simp only [Reader.next_id] at h
          have hn : r3.nextId = r.nextId := by rw [h3.2.2, h2.2.2, h1.2.2]
          unfold from_utf8 at h
          split at h
          · cases h
            refine ⟨?_, fun a ha => by cases ha⟩
            show r.nextId ≤ r3.nextId + 1
            omega
          · rename_i s hs
            cases h
            refine ⟨?_, fun a ha => ?_⟩
            · show r.nextId ≤ r3.nextId + 1
              omega
            · cases ha
              refine ⟨?_, ?_⟩
              · show [r3.nextId] = [r.nextId]
                rw [hn]
              · show r3.nextId + 1 = r.nextId + 1
                rw [hn]

theorem IdsOk.nil {c0 c1 : Nat} : IdsOk c0 c1 [] := ⟨List.Pairwise.nil, by simp⟩

theorem IdsOk.singleton {c0 c1 i : Nat} (h0 : c0 ≤ i) (h1 : i < c1) :
    IdsOk c0 c1 [i] := ⟨by simp, by simp [h0, h1]⟩

theorem IdsOk.widen {c0 c1 c0' c1' : Nat} {l : List Nat} (h : IdsOk c0 c1 l)
    (h0 : c0' ≤ c0) (h1 : c1 ≤ c1') : IdsOk c0' c1' l := by
  refine ⟨h.1, fun i hi => ?_⟩
  have := h.2 i hi
  omega

theorem IdsOk.append {c0 cm c1 : Nat} {l1 l2 : List Nat}
    (h1 : IdsOk c0 cm l1) (h2 : IdsOk cm c1 l2)
    (h0m : c0 ≤ cm) (hm1 : cm ≤ c1) : IdsOk c0 c1 (l1 ++ l2) := by
  refine ⟨List.pairwise_append.2 ⟨h1.1, h2.1, fun a ha b hb => ?_⟩, fun i hi => ?_⟩
  · have hha := h1.2 a ha
    have hhb := h2.2 b hb
    omega
  · rcases List.mem_append.1 hi with hi | hi
    · have := h1.2 i hi
      omega
    · have := h2.2 i hi
      omega

/-- The node-id invariant of one decode pass, for every decoder of the
family: the shared counter never decreases, and the ids stamped into a
successfully decoded tree, listed in assignment order, are strictly
increasing and confined to the counter window of the call. -/
theorem decode_ids_invariant : ∀ f,
    (∀ r res r', Asn1.decode f r = some (res, r') → r.nextId ≤ r'.nextId ∧
      ∀ a, res = .ok a → IdsOk r.nextId r'.nextId (Asn1.idsPost a)) ∧
    (∀ r res r', OctetString.decode_asn1F f r = some (res, r') → r.nextId ≤ r'.nextId ∧
      ∀ a, res = .ok a → IdsOk r.nextId r'.nextId (Asn1.idsPost a)) ∧
    (∀ r res r', OctetString.decodeF f r = some (res, r') → r.nextId ≤ r'.nextId ∧
      ∀ oc, res = .ok oc →
        IdsOk r.nextId r'.nextId (Asn1Type.idsPost (.octetString oc))) ∧
    (∀ t r res r', ExplicitTag.decodeF f t r = some (res, r') → r.nextId ≤ r'.nextId ∧
      ∀ et, res = .ok et → IdsOk r.nextId r'.nextId (idsPostList et.inner)) ∧
    (∀ r res r', ExplicitTag.decode_asn1F f r = some (res, r') → r.nextId ≤ r'.nextId ∧
      ∀ a, res = .ok a → IdsOk r.nextId r'.nextId (Asn1.idsPost a)) := by
  intro f
  induction f with
  | zero =>
    refine ⟨?_, ?_, ?_, ?_, ?_⟩ <;> (intros; rename_i h; cases h)
  | succ f ih =>
    obtain ⟨ihA, ihO, ihV, ihL, ihE⟩ := ih
    refine ⟨?_, ?_, ?_, ?_, ?_⟩
    · -- union dispatcher
      intro r res r' h
      simp only [Asn1.decode] at h
      cases hp : r.peek with
      | error e =>
        simp only [hp] at h
        cases h
        exact ⟨le_rfl, fun a ha => by cases ha⟩
      | ok b =>
        simp only [hp] at h
        by_cases h4 : OctetString.compare_tags ⟨b⟩ = true
        · simp only [if_pos h4] at h
          exact ihO r res r' h
        · simp only [if_neg h4] at h
          by_cases h12 : Utf8String.compare_tags ⟨b⟩ = true
          · simp only [if_pos h12] at h
            rw [Option.some.injEq] at h
            have hids := utf8_decode_asn1_ids (h ▸ rfl : Utf8String.decode_asn1 r = (res, r'))
            refine ⟨hids.1, fun a ha => ?_⟩
            obtain ⟨hid, hn⟩ := hids.2 a ha
            rw [hid, hn]
            exact IdsOk.singleton le_rfl (by omega)
          · simp only [if_neg h12] at h
            by_cases hex : ExplicitTag.compare_tags ⟨b⟩ = true
            · simp only [if_pos hex] at h
              exact ihE r res r' h
            · simp only [if_neg hex] at h
              cases h
              exact ⟨le_rfl, fun a ha => by cases ha⟩
    · -- octet-string tree decode
      intro r res r' h
      simp only [OctetString.decode_asn1F, Reader.next_id, Reader.new,
        Reader.set_next_id, Reader.set_offset, Reader.full_offset] at h
      cases hct : check_tag OctetString.compare_tags r with
      | mk res1 r1 =>
        obtain ⟨hd1, ho1, hn1⟩ := check_tag_frame hct
        cases res1 with
        | error e =>
          simp only [hct] at h
          cases h
          exact ⟨by omega, fun a ha => by cases ha⟩
        | ok b =>
          simp only [hct] at h
          cases hrl : read_len r1 with
          | mk res2 r2 =>
            obtain ⟨hd2, ho2, hn2⟩ := read_len_frame hrl
            cases res2 with
            | error e =>
              simp only [hrl] at h
              cases h
              exact ⟨by omega, fun a ha => by cases ha⟩
            | ok lp =>
              obtain ⟨len, lr⟩ := lp
              simp only [hrl] at h
              cases hrd : read_data r2 len with
              | mk res3 r3 =>
                obtain ⟨hd3, ho3, hn3⟩ := read_data_frame hrd
                cases res3 with
                | error e =>
                  simp only [hrd] at h
                  cases h
                  exact ⟨by omega, fun a ha => by cases ha⟩
                | ok dp =>
                  obtain ⟨data, dr⟩ := dp
                  simp only [hrd] at h
                  cases hnest : Asn1.decode f
                      ⟨data, 0, r3.offset + r3.pos, r3.nextId⟩ with
                  | none =>
                    rw [hnest] at h
                    cases h
                  | some y =>
                    obtain ⟨nres, ir⟩ := y
                    simp only [hnest] at h
                    have hQ := ihA _ _ _ hnest
                    have hQ1 : r3.nextId ≤ ir.nextId := hQ.1
                    cases hdir : Reader.data_in_range
                        ⟨r3.data, r3.pos, r3.offset, ir.nextId⟩ r.position dr.hi with
                    | error e =>
                      simp only [hdir] at h
                      cases h
                      exact ⟨by show r.nextId ≤ ir.nextId; omega,
                        fun a ha => by cases ha⟩
                    | ok raw =>
                      simp only [hdir] at h
                      cases h
                      refine ⟨by show r.nextId ≤ ir.nextId + 1; omega, fun a ha => ?_⟩
                      cases ha
                      show IdsOk r.nextId (ir.nextId + 1)
                        (Asn1.idsPost (.mk _ (.octetString (.mk ir.nextId data
                          nres.toOption))))
                      cases nres with
                      | error e =>
                        show IdsOk r.nextId (ir.nextId + 1) [ir.nextId]
                        exact IdsOk.singleton (by omega) (by omega)
                      | ok na =>
                        show IdsOk r.nextId (ir.nextId + 1)
                          (Asn1.idsPost na ++ [ir.nextId])
                        have hin := hQ.2 na rfl
                        exact IdsOk.append
                          (hin.widen (by show r.nextId ≤ r3.nextId; omega) le_rfl)
                          (IdsOk.singleton le_rfl (by omega)) (by omega) (by omega)
    · -- octet-string value decode
      intro r res r' h
      simp only [OctetString.decodeF, Reader.next_id, Reader.new,
        Reader.set_next_id] at h
      cases hct : check_tag OctetString.compare_tags r with
      | mk res1 r1 =>
        obtain ⟨hd1, ho1, hn1⟩ := check_tag_frame hct
        cases res1 with
        | error e =>
          simp only [hct] at h
          cases h
          exact ⟨by omega, fun a ha => by cases ha⟩
        | ok b =>
          simp only [hct] at h
          cases hrl : read_len r1 with
          | mk res2 r2 =>
            obtain ⟨hd2, ho2, hn2⟩ := read_len_frame hrl
            cases res2 with
            | error e =>
              simp only [hrl] at h
              cases h
              exact ⟨by omega, fun a ha => by cases ha⟩
            | ok lp =>
              obtain ⟨len, lr⟩ := lp
              simp only [hrl] at h
              cases hrd : r2.read len with
              | mk res3 r3 =>
                obtain ⟨hd3, ho3, hn3⟩ := Reader.read_frame hrd
                cases res3 with
                | error e =>
                  simp only [hrd] at h
                  cases h
                  exact ⟨by omega, fun a ha => by cases ha⟩
                | ok data =>
                  simp only [hrd] at h
                  cases hnest : Asn1.decode f ⟨data, 0, 0, r3.nextId⟩ with
                  | none =>
                    rw [hnest] at h
                    cases h
                  | some y =>
                    obtain ⟨nres, ir⟩ := y
                    simp only [hnest] at h
                    have hQ := ihA _ _ _ hnest
                    have hQ1 : r3.nextId ≤ ir.nextId := hQ.1
                    cases h
                    refine ⟨by show r.nextId ≤ ir.nextId + 1; omega, fun oc hoc => ?_⟩
                    cases hoc
                    cases nres with
                    | error e =>
                      show IdsOk r.nextId (ir.nextId + 1) [ir.nextId]
                      exact IdsOk.singleton (by omega) (by omega)
                    | ok na =>
                      show IdsOk r.nextId (ir.nextId + 1)
                        (Asn1.idsPost na ++ [ir.nextId])
                      have hin := hQ.2 na rfl
                      exact IdsOk.append
                        (hin.widen (by show r.nextId ≤ r3.nextId; omega) le_rfl)
                        (IdsOk.singleton le_rfl (by omega)) (by omega) (by omega)
    · -- explicit-tag child loop
      intro t r res r' h
      rw [ExplicitTag.decodeF] at h
      by_cases he : r.empty = true
      · rw [if_pos he] at h
        cases h
        refine ⟨le_rfl, fun et het => ?_⟩
        cases het
        exact IdsOk.nil
      · rw [if_neg he] at h
        cases hc : Asn1.decode f r with
        | none =>
          simp only [hc] at h
          cases h
        | some y =>
          obtain ⟨cres, r1⟩ := y
          simp only [hc] at h
          have hc1 := ihA _ _ _ hc
          cases cres with
          | error e =>
            cases h
            exact ⟨hc1.1, fun et het => by cases het⟩
          | ok a =>
            cases hrest : ExplicitTag.decodeF f t r1 with
            | none =>
              simp only [hrest] at h
              cases h
            | some z =>
              obtain ⟨zres, rL⟩ := z
              simp only [hrest] at h
              have hr1 := ihL _ _ _ _ hrest
              cases zres with
              | error e =>
                cases h
                exact ⟨by have := hc1.1; have := hr1.1; omega,
                  fun et het => by cases het⟩
              | ok et' =>
                cases et' with
                | mk tg inner =>
                  cases h
                  refine ⟨by have := hc1.1; have := hr1.1; omega, fun et het => ?_⟩
                  cases het
                  show IdsOk r.nextId r'.nextId
                    (Asn1.idsPost a ++ idsPostList inner)
                  exact IdsOk.append (hc1.2 a rfl) (hr1.2 ⟨tg, inner⟩ rfl)
                    hc1.1 hr1.1
    · -- explicit-tag tree driver
      intro r res r' h
      simp only [ExplicitTag.decode_asn1F, Reader.new, Reader.set_next_id,
        Reader.set_offset] at h
      cases hct : check_tag ExplicitTag.compare_tags r with
      | mk res1 r1 =>
        obtain ⟨hd1, ho1, hn1⟩ := check_tag_frame hct
        cases res1 with
        | error e =>
          simp only [hct] at h
          cases h
          exact ⟨by omega, fun a ha => by cases ha⟩
        | ok b =>
          simp only [hct] at h
          cases hrl : read_len r1 with
          | mk res2 r2 =>
            obtain ⟨hd2, ho2, hn2⟩ := read_len_frame hrl
            cases res2 with
            | error e =>
              simp only [hrl] at h
              cases h
              exact ⟨by omega, fun a ha => by cases ha⟩
            | ok lp =>
              obtain ⟨len, lr⟩ := lp
              simp only [hrl] at h
              cases hrd : read_data r2 len with
              | mk res3 r3 =>
                obtain ⟨hd3, ho3, hn3⟩ := read_data_frame hrd
                cases res3 with
                | error e =>
                  simp only [hrd] at h
                  cases h
                  exact ⟨by omega, fun a ha => by cases ha⟩
                | ok dp =>
                  obtain ⟨data, dr⟩ := dp
                  simp only [hrd] at h
                  cases hloop : ExplicitTag.decodeF f ⟨b⟩
                      ⟨data, 0, r3.offset + dr.lo, r3.nextId⟩ with
                  | none =>
                    rw [hloop] at h
                    cases h
                  | some y =>
                    obtain ⟨lres, ir⟩ := y
                    simp only [hloop] at h
                    have hQ := ihL _ _ _ _ hloop
                    have hQ1 : r3.nextId ≤ ir.nextId := hQ.1
                    cases lres with
                    | error e =>
                      cases h
                      exact ⟨by show r.nextId ≤ ir.nextId; omega,
                        fun a ha => by cases ha⟩
                    | ok et =>
                      cases et with
                      | mk tg inner =>
                        cases hdir : Reader.data_in_range
                            ⟨r3.data, r3.pos, r3.offset, ir.nextId⟩ r.position dr.hi with
                        | error e =>
                          simp only [hdir] at h
                          cases h
                          exact ⟨by show r.nextId ≤ ir.nextId; omega,
                            fun a ha => by cases ha⟩
                        | ok raw =>
                          simp only [hdir] at h
                          cases h
                          refine ⟨by show r.nextId ≤ ir.nextId; omega, fun a ha => ?_⟩
                          cases ha
                          show IdsOk r.nextId ir.nextId (idsPostList inner)
                          exact (hQ.2 ⟨tg, inner⟩ rfl).widen
                            (by show r.nextId ≤ r3.nextId; omega) le_rfl

/-- C4: within one decode pass, the node ids assigned to the decoded tree,
listed in assignment order, are strictly increasing with no duplicates, and
they all lie in the counter window of the pass — the child reader of an
octet-string nested decode starts from the parent's counter value and the
parent resumes from the child's final counter value, so ids never collide
or reset across the nesting boundary. -/
theorem C4_ids_strictly_increasing (f : Nat) (r : Reader) (a : Asn1) (r' : Reader)
    (h : Asn1.decode f r = some (.ok a, r')) :
    (Asn1.idsPost a).Pairwise (· < ·) ∧
    r.nextId ≤ r'.nextId ∧
    ∀ i ∈ Asn1.idsPost a, r.nextId ≤ i ∧ i < r'.nextId := by
  have H := (decode_ids_invariant f).1 r _ r' h
  exact ⟨(H.2 a rfl).1, H.1, (H.2 a rfl).2⟩

/-- Witness for C4 on the buffer `[4,5,12,3,65,66,67]`: an octet string
whose payload is itself an encoded UTF-8 string; the nested node gets id 0,
the outer node id 1, and the final counter is 2. -/
theorem C4_ids_strictly_increasing_witness :
    (Asn1.decode 10 ⟨[4, 5, 12, 3, 65, 66, 67], 0, 0, 0⟩ =
      some (.ok
        (.mk (.mk [4, 5, 12, 3, 65, 66, 67] 0 (.mk 1 2) (.mk 2 7))
          (.octetString (.mk 1 [12, 3, 65, 66, 67]
            (some (.mk (.mk [12, 3, 65, 66, 67] 7 (.mk 1 2) (.mk 2 5))
              (.utf8String (.mk 0 [65, 66, 67])))))))
        , ⟨[4, 5, 12, 3, 65, 66, 67], 7, 0, 2⟩)) ∧
    ((Asn1.idsPost
        (.mk (.mk [4, 5, 12, 3, 65, 66, 67] 0 (.mk 1 2) (.mk 2 7))
          (.octetString (.mk 1 [12, 3, 65, 66, 67]
            (some (.mk (.mk [12, 3, 65, 66, 67] 7 (.mk 1 2) (.mk 2 5))
              (.utf8String (.mk 0 [65, 66, 67])))))))).Pairwise (· < ·) ∧
      (⟨[4, 5, 12, 3, 65, 66, 67], 0, 0, 0⟩ : Reader).nextId ≤
        (⟨[4, 5, 12, 3, 65, 66, 67], 7, 0, 2⟩ : Reader).nextId ∧
      ∀ i ∈ Asn1.idsPost
        (.mk (.mk [4, 5, 12, 3, 65, 66, 67] 0 (.mk 1 2) (.mk 2 7))
          (.octetString (.mk 1 [12, 3, 65, 66, 67]
            (some (.mk (.mk [12, 3, 65, 66, 67] 7 (.mk 1 2) (.mk 2 5))
              (.utf8String (.mk 0 [65, 66, 67]))))))),
        (⟨[4, 5, 12, 3, 65, 66, 67], 0, 0, 0⟩ : Reader).nextId ≤ i ∧
          i < (⟨[4, 5, 12, 3, 65, 66, 67], 7, 0, 2⟩ : Reader).nextId) :=
  ⟨by rfl,
    C4_ids_strictly_increasing 10 ⟨[4, 5, 12, 3, 65, 66, 67], 0, 0, 0⟩
      (.mk (.mk [4, 5, 12, 3, 65, 66, 67] 0 (.mk 1 2) (.mk 2 7))
        (.octetString (.mk 1 [12, 3, 65, 66, 67]
          (some (.mk (.mk [12, 3, 65, 66, 67] 7 (.mk 1 2) (.mk 2 5))
            (.utf8String (.mk 0 [65, 66, 67])))))))
      ⟨[4, 5, 12, 3, 65, 66, 67], 7, 0, 2⟩ (by rfl)⟩

theorem slice_split (l : List Nat) (p q s : Nat) (h1 : p ≤ q) (h2 : q ≤ s) :
    (l.drop p).take (s - p) =
      (l.drop p).take (q - p) ++ (l.drop q).take (s - q) := by
  rw [show s - p = (q - p) + (s - q) by omega, List.take_add]
  congr 2
  rw [List.drop_drop]
  congr 1
  omega

theorem slice_one {l : List Nat} {p : Nat} {b : Nat} (h : l[p]? = some b) :
    (l.drop p).take 1 = [b] := by
  have hlt : p < l.length := by
    by_contra hge
    rw [List.getElem?_eq_none (by omega)] at h
    cases h
  have hbv : l[p] = b := by
    rw [List.getElem?_eq_getElem hlt] at h
    exact Option.some.injEq .. ▸ h
  rw [List.drop_eq_getElem_cons hlt, hbv, List.take_succ_cons, List.take_zero]

mutual

theorem Asn1.encBytes_length : ∀ a : Asn1,
    (Asn1.encBytes a).length = Asn1.needed_buf_size a
  | .mk _ t => Asn1Type.encBytes_length_type t

theorem Asn1Type.encBytes_length_type : ∀ t : Asn1Type,
    (Asn1Type.encBytes t).length = Asn1Type.needed_buf_size t
  | .octetString (.mk _ oc _) => by
    show (OctetString.TAG.v :: (write_len_bytes oc.length ++ oc)).length
      = 1 + len_size oc.length + oc.length
    simp [write_len_bytes_length]
    omega
  | .utf8String s => by
    show (Utf8String.TAG.v :: (write_len_bytes s.string.length ++ s.string)).length
      = 1 + len_size s.string.length + s.string.length
    simp [write_len_bytes_length]
    omega
  | .explicitTag (.mk tg inner) => by
    have hrec := encBytesList_length inner
    show (tg :: (write_len_bytes (sumNeeded inner) ++ encBytesList inner)).length
      = 1 + len_size (sumNeeded inner) + sumNeeded inner
    simp [write_len_bytes_length, hrec]
    omega

theorem encBytesList_length : ∀ l : List Asn1,
    (encBytesList l).length = sumNeeded l
  | [] => rfl
  | a :: rest => by
    have h1 := Asn1.encBytes_length a
    have h2 := encBytesList_length rest
    show (Asn1.encBytes a ++ encBytesList rest).length
      = Asn1.needed_buf_size a + sumNeeded rest
    simp [h1, h2]

end

mutual

theorem Asn1.encode_encBytes : ∀ (a : Asn1) (w : Writer),
    Asn1.encode a w = w.write_slice (Asn1.encBytes a)
  | .mk _ t, w => Asn1Type.encode_encBytes_type t w

theorem Asn1Type.encode_encBytes_type : ∀ (t : Asn1Type) (w : Writer),
    Asn1Type.encode t w = w.write_slice (Asn1Type.encBytes t)
  | .octetString (.mk id oc inner), w => OctetString.encode_eq (.mk id oc inner) w
  | .utf8String s, w => Utf8String.encode_eq_utf8 s w
  | .explicitTag (.mk tg inner), w => by
    show ExplicitTag.encode (.mk tg inner) w
      = w.write_slice ((tg :: write_len_bytes (sumNeeded inner)) ++ encBytesList inner)
    rw [ExplicitTag.encode_eq_explicit, Writer.write_slice_append]
    exact except_bind_congr _ (fun w2 => encodeList_encBytes inner w2)

theorem encodeList_encBytes : ∀ (l : List Asn1) (w : Writer),
    encodeList l w = w.write_slice (encBytesList l)
  | [], w => rfl
  | a :: rest, w => by
    show (match Asn1.encode a w with
      | Except.error err => Except.error err
      | Except.ok w1 => encodeList rest w1)
      = w.write_slice (Asn1.encBytes a ++ encBytesList rest)
    rw [Writer.write_slice_append, Asn1.encode_encBytes a w]
    cases hws : w.write_slice (Asn1.encBytes a) with
    | error e => rfl
    | ok w1 => simp only [Except.bind]; exact encodeList_encBytes rest w1

end

/-- The consumed-slice invariant behind the round trip: a successful tree
decode over a byte buffer consumes exactly the slice `encode` would emit
for the decoded value, provided every length field in the tree is minimal;
and the explicit-tag child loop consumes its reader to the end, the
children's emitted bytes concatenating to the remaining payload. -/
theorem decode_consumed_encBytes : ∀ f,
    (∀ r a r', Asn1.decode f r = some (.ok a, r') →
      (∀ b ∈ r.data, b < 256) →
      r'.data = r.data ∧ r.pos ≤ r'.pos ∧ r'.pos ≤ r.data.length ∧
      (Asn1.minimalLens a = true →
        (r.data.drop r.pos).take (r'.pos - r.pos) = Asn1.encBytes a)) ∧
    (∀ t r et r', ExplicitTag.decodeF f t r = some (.ok et, r') →
      (∀ b ∈ r.data, b < 256) → r.pos ≤ r.data.length →
      r'.data = r.data ∧ r.pos ≤ r'.pos ∧ r'.pos = r.data.length ∧
      et.tagByte = t.v ∧
      (minimalLensList et.inner = true →
        r.data.drop r.pos = encBytesList et.inner)) := by
  intro f
  induction f with
  | zero =>
    constructor
    · intro r a r' h
      cases h
    · intro t r et r' h
      cases h
  | succ f ih =>
    obtain ⟨ihA, ihL⟩ := ih
    constructor
    · -- the union dispatcher
      intro r a r' h hbytes
      simp only [Asn1.decode] at h
      cases hp : r.peek with
      | error e =>
        simp only [hp] at h
        simp at h
      | ok b =>
        simp only [hp] at h
        by_cases h4 : OctetString.compare_tags ⟨b⟩ = true
        · -- octet-string node
          simp only [if_pos h4] at h
          match f, h with
          | g + 1, h =>
          obtain ⟨len, lhi, res, ir, hb4, hrl, hl1, hl2, hnest, ha, hr'⟩ :=
            OctetString.decode_asn1F_ok h
          subst ha hr'
          refine ⟨rfl, by show r.pos ≤ lhi + len; omega,
            by show lhi + len ≤ r.data.length; omega, ?_⟩
          intro hmin
          rw [show Asn1.minimalLens (.mk
              ⟨(r.data.drop r.pos).take (lhi + len - r.pos), r.full_offset,
                ⟨r.pos + 1, lhi⟩, ⟨lhi, lhi + len⟩⟩
              (.octetString (.mk ir.nextId ((r.data.drop lhi).take len) res.toOption)))
            = ((lhi - (r.pos + 1) == len_size (lhi + len - lhi)) && true) from rfl] at hmin
          rw [Bool.and_true, beq_iff_eq, Nat.add_sub_cancel_left] at hmin
          have hwl := read_len_minimal hrl (by simpa using hbytes)
            (by show lhi - (r.pos + 1) = len_size len; omega)
          have hdl : ((r.data.drop lhi).take len).length = len := by
            simp
            omega
          show (r.data.drop r.pos).take (lhi + len - r.pos)
            = OctetString.TAG.v :: (write_len_bytes ((r.data.drop lhi).take len).length
                ++ (r.data.drop lhi).take len)
          rw [hdl]
          rw [show lhi + len - r.pos
            = (lhi + len) - r.pos from rfl]
          rw [slice_split r.data r.pos (r.pos + 1) (lhi + len) (by omega) (by omega)]
          rw [slice_split r.data (r.pos + 1) lhi (lhi + len) (by omega) (by omega)]
          rw [show r.pos + 1 - r.pos = 1 by omega]
          rw [slice_one hb4]
          have hwl' : (r.data.drop (r.pos + 1)).take (lhi - (r.pos + 1))
              = write_len_bytes len := by
            simpa using hwl
          rw [hwl', Nat.add_sub_cancel_left]
          rfl
        · simp only [if_neg h4] at h
          by_cases h12 : Utf8String.compare_tags ⟨b⟩ = true
          · -- UTF-8 node
            simp only [if_pos h12] at h
            rw [Option.some.injEq] at h
            obtain ⟨len, lhi, hb12, hrl, hl1, hl2, hval, ha, hr'⟩ :=
              Utf8String.decode_asn1_ok h
            subst ha hr'
            refine ⟨rfl, by show r.pos ≤ lhi + len; omega,
              by show lhi + len ≤ r.data.length; omega, ?_⟩
            intro hmin
            rw [show Asn1.minimalLens (.mk
                ⟨(r.data.drop r.pos).take (lhi + len - r.pos), r.full_offset,
                  ⟨r.pos + 1, lhi⟩, ⟨lhi, lhi + len⟩⟩
                (.utf8String ⟨r.nextId, (r.data.drop lhi).take len⟩))
              = ((lhi - (r.pos + 1) == len_size (lhi + len - lhi)) && true) from rfl] at hmin
            rw [Bool.and_true, beq_iff_eq, Nat.add_sub_cancel_left] at hmin
            have hwl := read_len_minimal hrl (by simpa using hbytes)
              (by show lhi - (r.pos + 1) = len_size len; omega)
            have hdl : ((r.data.drop lhi).take len).length = len := by
              simp
              omega
            show (r.data.drop r.pos).take (lhi + len - r.pos)
              = Utf8String.TAG.v :: (write_len_bytes ((r.data.drop lhi).take len).length
                  ++ (r.data.drop lhi).take len)
            rw [hdl]
            rw [slice_split r.data r.pos (r.pos + 1) (lhi + len) (by omega) (by omega)]
            rw [slice_split r.data (r.pos + 1) lhi (lhi + len) (by omega) (by omega)]
            rw [show r.pos + 1 - r.pos = 1 by omega]
            rw [slice_one hb12]
            have hwl' : (r.data.drop (r.pos + 1)).take (lhi - (r.pos + 1))
                = write_len_bytes len := by
              simpa using hwl
            rw [hwl', Nat.add_sub_cancel_left]
            rfl
          · simp only [if_neg h12] at h
            by_cases hex : ExplicitTag.compare_tags ⟨b⟩ = true
            · -- explicit-tag node
              simp only [if_pos hex] at h
              match f, h with
              | g + 1, h =>
              obtain ⟨b', len, lhi, et, ir, hb', hcmp, hrl, hl1, hl2, hloop, ha, hr'⟩ :=
                ExplicitTag.decode_asn1F_success h
              cases et with
              | mk tg inner =>
              subst ha hr'
              have hloopG := ExplicitTag.decodeF_mono (Nat.le_succ g) hloop
              have hpay : ∀ x ∈ (r.data.drop lhi).take len, x < 256 := fun x hx =>
                hbytes x (List.mem_of_mem_drop (List.mem_of_mem_take hx))
              have hIH := ihL ⟨b'⟩
                ⟨(r.data.drop lhi).take len, 0, r.offset + lhi, r.nextId⟩
                ⟨tg, inner⟩ ir hloopG hpay (Nat.zero_le _)
              obtain ⟨hid, hip0, hiplen, htg, hinner⟩ := hIH
              have hplen : ((r.data.drop lhi).take len).length = len := by
                simp
                omega
              refine ⟨rfl, by show r.pos ≤ lhi + len; omega,
                by show lhi + len ≤ r.data.length; omega, ?_⟩
              intro hmin
              rw [show Asn1.minimalLens (.mk
                  ⟨(r.data.drop r.pos).take (lhi + len - r.pos), r.full_offset,
                    ⟨r.pos + 1, lhi⟩, ⟨lhi, lhi + len⟩⟩
                  (.explicitTag (.mk tg inner)))
                = ((lhi - (r.pos + 1) == len_size (lhi + len - lhi))
                    && minimalLensList inner) from rfl] at hmin
              rw [Bool.and_eq_true, beq_iff_eq, Nat.add_sub_cancel_left] at hmin
              obtain ⟨hminlen, hminner⟩ := hmin
              have hpayload : (r.data.drop lhi).take len = encBytesList inner := by
                have := hinner hminner
                simpa using this
              have hsum : sumNeeded inner = len := by
                have h1 := encBytesList_length inner
                rw [← hpayload, hplen] at h1
                omega
              have hwl := read_len_minimal hrl (by simpa using hbytes)
                (by show lhi - (r.pos + 1) = len_size len; omega)
              show (r.data.drop r.pos).take (lhi + len - r.pos)
                = tg :: (write_len_bytes (sumNeeded inner) ++ encBytesList inner)
              rw [slice_split r.data r.pos (r.pos + 1) (lhi + len) (by omega) (by omega)]
              rw [slice_split r.data (r.pos + 1) lhi (lhi + len) (by omega) (by omega)]
              rw [show r.pos + 1 - r.pos = 1 by omega]
              rw [slice_one hb']
              have hwl' : (r.data.drop (r.pos + 1)).take (lhi - (r.pos + 1))
                  = write_len_bytes len := by
                simpa using hwl
              rw [hwl', Nat.add_sub_cancel_left, hpayload, hsum]
              have htg' : tg = b' := by
                simpa using htg
              rw [htg']
              rfl
            · simp only [if_neg hex] at h
              simp at h
    · -- the explicit-tag child loop
      intro t r et r' h hbytes hp
      rw [ExplicitTag.decodeF] at h
      by_cases he : r.empty = true
      · rw [if_pos he] at h
        cases h
        simp only [Reader.empty, decide_eq_true_eq] at he
        refine ⟨rfl, le_rfl, by omega, rfl, ?_⟩
        intro _
        rw [List.drop_eq_nil_of_le (by omega)]
        rfl
      · rw [if_neg he] at h
        cases hc : Asn1.decode f r with
        | none =>
          simp only [hc] at h
          cases h
        | some y =>
          obtain ⟨cres, r1⟩ := y
          simp only [hc] at h
          cases cres with
          | error e =>
            simp at h
          | ok a =>
            cases hrest : ExplicitTag.decodeF f t r1 with
            | none =>
              simp only [hrest] at h
              cases h
            | some z =>
              obtain ⟨zres, rz⟩ := z
              simp only [hrest] at h
              cases zres with
              | error e =>
                simp at h
              | ok et' =>
                cases h
                obtain ⟨hd1, hp1, hpl1, hsl1⟩ := ihA r a r1 hc hbytes
                obtain ⟨hd2, hp2, hpl2, htg2, hsl2⟩ := ihL t r1 et' r' hrest
                  (by rw [hd1]; exact hbytes) (by rw [hd1]; omega)
                refine ⟨by rw [hd2, hd1], by omega, by rw [hpl2, hd1],
                  htg2, ?_⟩
                intro hmin
                have hmin' : minimalLensList (a :: et'.inner) = true := hmin
                rw [show minimalLensList (a :: et'.inner)
                  = (Asn1.minimalLens a && minimalLensList et'.inner) from rfl] at hmin'
                rw [Bool.and_eq_true] at hmin'
                obtain ⟨hma, hml⟩ := hmin'
                show r.data.drop r.pos = Asn1.encBytes a ++ encBytesList et'.inner
                have hs1 := hsl1 hma
                have hs2 := hsl2 hml
                rw [hd1] at hs2
                have hdd : (r.data.drop r.pos).drop (r1.pos - r.pos)
                    = r.data.drop r1.pos := by
                  rw [List.drop_drop]
                  congr 1
                  omega
                rw [← hs1, ← hs2, ← hdd, List.take_append_drop]

/-- Counterexample to C1 as stated: two buffers from which a value is
successfully decoded but whose re-encoding into a `needed_buf_size()`
buffer does not reproduce the input.  `[4,0,99]` decodes (the trailing
byte `99` is ignored) and re-encodes to `[4,0]`; `[4,129,0]` — a zero
length in non-minimal long form — is consumed in full, and re-encodes to
the minimal form `[4,0]`.  In both cases the decode succeeds and the
encode succeeds, but the output differs from the input buffer. -/
theorem C1_counterexample :
    (Asn1.decode 10 (Reader.new [4, 0, 99]) = some (.ok
      (.mk (.mk [4, 0] 0 (.mk 1 2) (.mk 2 2)) (.octetString (.mk 0 [] none))),
      ⟨[4, 0, 99], 2, 0, 1⟩) ∧
     Asn1.needed_buf_size
       (.mk (.mk [4, 0] 0 (.mk 1 2) (.mk 2 2)) (.octetString (.mk 0 [] none))) = 2 ∧
     Asn1.encode_buff
       (.mk (.mk [4, 0] 0 (.mk 1 2) (.mk 2 2)) (.octetString (.mk 0 [] none)))
       (List.replicate 2 0) = .ok [4, 0] ∧
     [4, 0] ≠ [4, 0, 99]) ∧
    (Asn1.decode 10 (Reader.new [4, 129, 0]) = some (.ok
      (.mk (.mk [4, 129, 0] 0 (.mk 1 3) (.mk 3 3)) (.octetString (.mk 0 [] none))),
      ⟨[4, 129, 0], 3, 0, 1⟩) ∧
     Asn1.needed_buf_size
       (.mk (.mk [4, 129, 0] 0 (.mk 1 3) (.mk 3 3)) (.octetString (.mk 0 [] none))) = 2 ∧
     Asn1.encode_buff
       (.mk (.mk [4, 129, 0] 0 (.mk 1 3) (.mk 3 3)) (.octetString (.mk 0 [] none)))
       (List.replicate 2 0) = .ok [4, 0] ∧
     [4, 0] ≠ [4, 129, 0]) :=
  ⟨⟨by rfl, by rfl, by rfl, by decide⟩, ⟨by rfl, by rfl, by rfl, by decide⟩⟩

/-- C1 (amended): for every byte buffer `B` from which a tree value is
successfully decoded, if the decode consumed the whole of `B` and every
length field in the decoded tree is minimally encoded, then encoding the
value into a buffer of length `needed_buf_size()` succeeds and reproduces
`B` exactly, byte for byte (`needed_buf_size()` equals `B`'s length).  As
stated the claim is false: a successful decode may leave trailing bytes
unconsumed, and a non-minimal long-form length field decodes successfully
but re-encodes minimally — see the counterexample. -/
theorem C1_roundtrip (f : Nat) (B : List Nat) (a : Asn1) (r' : Reader)
    (hB : ∀ b ∈ B, b < 256)
    (h : Asn1.decode f (Reader.new B) = some (.ok a, r'))
    (hmin : Asn1.minimalLens a = true)
    (hfull : r'.pos = B.length) :
    Asn1.needed_buf_size a = B.length ∧
    Asn1.encode_buff a (List.replicate (Asn1.needed_buf_size a) 0) = .ok B := by
  obtain ⟨hd, hp0, hpl, hslice⟩ :=
    (decode_consumed_encBytes f).1 (Reader.new B) a r' h hB
  have hsB : Asn1.encBytes a = B := by
    have hs := hslice hmin
    simp only [Reader.new] at hs
    simpa [hfull] using hs.symm
  have hlen : Asn1.needed_buf_size a = B.length := by
    rw [← Asn1.encBytes_length a, hsB]
  refine ⟨hlen, ?_⟩
  show (Asn1.encode a (Writer.new (List.replicate (Asn1.needed_buf_size a) 0))).map
    Writer.buf = .ok B
  rw [Asn1.encode_encBytes, hsB]
  have hws := Writer.write_slice_spec B
    (Writer.new (List.replicate (Asn1.needed_buf_size a) 0))
    (by simp [Writer.new, hlen])
  rw [hws]
  have hdrop : (List.replicate (Asn1.needed_buf_size a) 0).drop B.length
      = ([] : List Nat) :=
    List.drop_eq_nil_of_le (by simp [hlen])
  simp only [Writer.new, splice, hdrop, List.take_zero, List.nil_append,
    List.append_nil, Nat.zero_add]
  rfl

/-- Witness for the amended C1 on the buffer `[4,5,12,3,65,66,67]` (an
octet string wrapping an encoded UTF-8 string): the decode consumes all 7
bytes with minimal length fields, `needed_buf_size()` is 7, and re-encoding
reproduces the buffer. -/
theorem C1_roundtrip_witness :
    Asn1.needed_buf_size
      (.mk (.mk [4, 5, 12, 3, 65, 66, 67] 0 (.mk 1 2) (.mk 2 7))
        (.octetString (.mk 1 [12, 3, 65, 66, 67]
          (some (.mk (.mk [12, 3, 65, 66, 67] 7 (.mk 1 2) (.mk 2 5))
            (.utf8String (.mk 0 [65, 66, 67])))))))
      = [4, 5, 12, 3, 65, 66, 67].length ∧
    Asn1.encode_buff
      (.mk (.mk [4, 5, 12, 3, 65, 66, 67] 0 (.mk 1 2) (.mk 2 7))
        (.octetString (.mk 1 [12, 3, 65, 66, 67]
          (some (.mk (.mk [12, 3, 65, 66, 67] 7 (.mk 1 2) (.mk 2 5))
            (.utf8String (.mk 0 [65, 66, 67])))))))
      (List.replicate (Asn1.needed_buf_size
        (.mk (.mk [4, 5, 12, 3, 65, 66, 67] 0 (.mk 1 2) (.mk 2 7))
          (.octetString (.mk 1 [12, 3, 65, 66, 67]
            (some (.mk (.mk [12, 3, 65, 66, 67] 7 (.mk 1 2) (.mk 2 5))
              (.utf8String (.mk 0 [65, 66, 67])))))))) 0)
      = .ok [4, 5, 12, 3, 65, 66, 67] :=
  C1_roundtrip 10 [4, 5, 12, 3, 65, 66, 67]
    (.mk (.mk [4, 5, 12, 3, 65, 66, 67] 0 (.mk 1 2) (.mk 2 7))
      (.octetString (.mk 1 [12, 3, 65, 66, 67]
        (some (.mk (.mk [12, 3, 65, 66, 67] 7 (.mk 1 2) (.mk 2 5))
          (.utf8String (.mk 0 [65, 66, 67])))))))
    ⟨[4, 5, 12, 3, 65, 66, 67], 7, 0, 2⟩
    (by decide) (by rfl) (by rfl) (by rfl)

end Asn1Parser
